import Mathlib

/-!
Verification of the document-processing pipeline of the property-tr-report
repository: the strategy analyzer, text chunker, page batcher and result
merger of `backend/src/services/pdfChunkService.js`, the retry logic of
`backend/src/services/claudeService.js`, and the resumable analysis loop
(`processAnalysis`) of the job orchestrator.

Strings are modelled as `List Char` so that every definition is executable
and every concrete instance can be settled by `decide`.  JavaScript string
primitives used by the source (`trim`, `split(/\n\s*\n/)`, `includes`,
`startsWith`, `toLowerCase`, `indexOf`) are given faithful executable
models below.
-/

/-- JavaScript strings, modelled as character lists. -/
abbrev JStr := List Char

/-- The character class `\s` of JavaScript regular expressions, which is also
the class trimmed by `String.prototype.trim`. -/
def isJsWs (c : Char) : Bool :=
  c = ' ' || c = '\t' || c = '\n' || c.val = 11 || c.val = 12 || c = '\r' ||
  c.val = 0xA0 || c.val = 0x1680 || (0x2000 ≤ c.val && c.val ≤ 0x200A) ||
  c.val = 0x2028 || c.val = 0x2029 || c.val = 0x202F || c.val = 0x205F ||
  c.val = 0x3000 || c.val = 0xFEFF

/-- `String.prototype.trim`: drop JS whitespace from both ends. -/
def jsTrim (s : JStr) : JStr :=
  ((s.dropWhile isJsWs).reverse.dropWhile isJsWs).reverse

/-- Index of the last `'\n'` in a list, if any. -/
def lastNlIdx (l : JStr) : Option Nat :=
  (l.reverse.findIdx? (fun c => c = '\n')).map (fun k => l.length - 1 - k)

/-- One step of `split(/\n\s*\n/)`: if a separator match starts at the head
of the list (a newline, then greedily as much whitespace as possible, then a
final newline), return the remainder after the match. -/
def matchSep : JStr → Option JStr
  | '\n' :: rest =>
      let run := rest.takeWhile isJsWs
      match lastNlIdx run with
      | some j => some (rest.drop (j + 1))
      | none => none
  | _ => none

/-- Fuelled scanner for `split(/\n\s*\n/)`; each call consumes at least one
character, so `fuel = s.length` always suffices. -/
def splitParasGo : Nat → JStr → JStr → List JStr
  | 0, acc, s => [acc.reverse ++ s]
  | _ + 1, acc, [] => [acc.reverse]
  | fuel + 1, acc, c :: rest =>
      match matchSep (c :: rest) with
      | some rest2 => acc.reverse :: splitParasGo fuel [] rest2
      | none => splitParasGo fuel (c :: acc) rest

/-- `fullText.split(/\n\s*\n/)` from `extractTextChunks`. -/
def jsSplitParas (s : JStr) : List JStr := splitParasGo s.length [] s

/-! ## Configuration (`PDF_CONFIG` of pdfChunkService.js) -/

def MAX_DIRECT_PDF_SIZE : Nat := 10 * 1024 * 1024
def MAX_BATCH_SIZE : Nat := 8 * 1024 * 1024
def MAX_PAGES_PER_BATCH : Nat := 5
def MIN_TEXT_LENGTH : Nat := 500
def MAX_TOTAL_PAGES : Nat := 500
def TEXT_CHUNK_SIZE : Nat := 40000

/-- `Math.ceil (a / b)` for natural `a`, positive natural `b`. -/
def ceilDiv (a b : Nat) : Nat := (a + b - 1) / b

/-! ## Strategy Analyzer (`analyzePdf`) -/

inductive Strategy
  | directText
  | directPdf
  | textChunk
  | pageSplit
deriving DecidableEq, Repr

/-- Outcome of the two external PDF reads inside `analyzePdf`: either
`pdf-parse` succeeds, yielding a page count and the trimmed extracted-text
length; or it throws and the `pdf-lib` fallback yields only a page count; or
both reads throw. -/
inductive PdfParseOutcome
  | parsed (pageCount : Nat) (textLength : Nat)
  | parseFailedLibOk (pageCount : Nat)
  | bothFailed
deriving DecidableEq, Repr

structure PdfAnalysis where
  fileSize : Nat
  pageCount : Nat
  hasText : Bool
  textLength : Nat
  isScannedPdf : Bool
  strategy : Strategy
  estimatedChunks : Nat
deriving DecidableEq, Repr

/-- `analyzePdf` of pdfChunkService.js.  The float comparison
`avgTextPerPage < 100` is exact on integers: for `pageCount > 0`,
`textLength / pageCount < 100 ↔ textLength < 100 * pageCount`, and for
`pageCount = 0` the source sets the average to `0`. -/
def analyzePdf (fileSize : Nat) (p : PdfParseOutcome) : PdfAnalysis :=
  match p with
  | .parsed pageCount textLength =>
      let hasText : Bool := decide (MIN_TEXT_LENGTH < textLength)
      let avgLt100 : Bool :=
        if pageCount = 0 then true else decide (textLength < 100 * pageCount)
      let isScanned : Bool := !hasText || avgLt100
      let strategy : Strategy :=
        if fileSize ≤ MAX_DIRECT_PDF_SIZE ∧ isScanned = false then .directText
        else if fileSize ≤ MAX_DIRECT_PDF_SIZE then .directPdf
        else if isScanned = false ∧ MIN_TEXT_LENGTH < textLength then .textChunk
        else .pageSplit
      let estimated : Nat :=
        match strategy with
        | .pageSplit => ceilDiv (min pageCount MAX_TOTAL_PAGES) MAX_PAGES_PER_BATCH
        | .textChunk => ceilDiv textLength TEXT_CHUNK_SIZE
        | _ => 1
      ⟨fileSize, pageCount, hasText, textLength, isScanned, strategy, estimated⟩
  | .parseFailedLibOk pageCount =>
      ⟨fileSize, pageCount, false, 0, true, .pageSplit,
        ceilDiv (min pageCount MAX_TOTAL_PAGES) MAX_PAGES_PER_BATCH⟩
  | .bothFailed =>
      ⟨fileSize, 0, false, 0, true, .directPdf, 1⟩

/-! ## Text chunker (`extractTextChunks`) -/

/-- The paragraph separator `'\n\n'` inserted by the chunk accumulator. -/
def sepNN : JStr := ['\n', '\n']

/-- The paragraph loop of `extractTextChunks`: greedily accumulate
paragraphs into `cur`, flushing `cur` whenever adding the next paragraph
would push `cur.length + p.length` over the target; returns the flushed
chunks (in order) and the final unflushed accumulator. -/
def chunkAccumGo (cs : Nat) : List JStr → JStr → List JStr × JStr
  | [], cur => ([], cur)
  | p :: ps, cur =>
      if cs < cur.length + p.length ∧ 0 < cur.length then
        let r := chunkAccumGo cs ps p
        (cur :: r.1, r.2)
      else
        chunkAccumGo cs ps (cur ++ (if cur.isEmpty then [] else sepNN) ++ p)

structure TextChunk where
  index : Nat
  content : JStr
  charCount : Nat
deriving DecidableEq, Repr

/-- Turn the untrimmed chunk strings into the chunk objects pushed by the
source: `content` is the trimmed string, `charCount` the untrimmed length,
`index` sequential. -/
def mkChunks : Nat → List JStr → List TextChunk
  | _, [] => []
  | i, u :: us => ⟨i, jsTrim u, u.length⟩ :: mkChunks (i + 1) us

/-- Join a list of strings with the blank-line separator; used to state
what "concatenating all chunks with paragraph boundaries preserved"
means. -/
def joinSep : List JStr → JStr
  | [] => []
  | [x] => x
  | x :: y :: xs => x ++ sepNN ++ joinSep (y :: xs)

/-- `extractTextChunks` of pdfChunkService.js (text-extraction already
performed: `fullText` is the extracted text). -/
def extractTextChunks (fullText : JStr) (chunkSize : Nat) : List TextChunk :=
  if (jsTrim fullText).isEmpty then []
  else
    let paras := jsSplitParas fullText
    let r := chunkAccumGo chunkSize paras []
    let us := r.1 ++ (if 0 < (jsTrim r.2).length then [r.2] else [])
    mkChunks 0 us

/-! ## Page batcher (`splitPdfIntoBatches`) -/

/-- One emitted batch.  The source materialises each batch as a fresh PDF
holding exactly the pages of `pages` (0-based indices into the input
document); `startPage`/`endPage` are the 1-based bounds it records. -/
structure PageBatch where
  batchIndex : Nat
  startPage : Nat
  endPage : Nat
  pageCount : Nat
  pages : List Nat
  size : Nat
deriving DecidableEq, Repr

/-- Oracles for the external pdf-lib effects inside `splitPdfIntoBatches`:
the serialized byte size of a document holding a given page set, whether the
bulk batch-creation step throws for a given page set, and whether copying a
single page throws. -/
structure SplitOracle where
  sizeOf : List Nat → Nat
  batchFails : List Nat → Bool
  pageFails : Nat → Bool

/-- The per-page fallback loop: emit a single-page batch for each page,
skipping pages whose extraction throws.  `idx` is the running
`batches.length`. -/
def emitSingles (ora : SplitOracle) (totalPages : Nat) :
    List Nat → Nat → List PageBatch
  | [], _ => []
  | pi :: pis, idx =>
      if ora.pageFails pi then emitSingles ora totalPages pis idx
      else
        ⟨idx, pi + 1, pi + 1, 1, [pi], ora.sizeOf [pi]⟩ ::
          emitSingles ora totalPages pis (idx + 1)

/-- Finalize one accumulated batch: on bulk-creation failure or oversize
(with more than one page) degrade to single-page batches, otherwise emit the
batch whole. -/
def emitBatch (ora : SplitOracle) (totalPages : Nat) (cur : List Nat)
    (curStart pageIndex idx : Nat) : List PageBatch :=
  if ora.batchFails cur then emitSingles ora totalPages cur idx
  else if MAX_BATCH_SIZE < ora.sizeOf cur ∧ 1 < cur.length then
    emitSingles ora totalPages cur idx
  else
    [⟨idx, curStart + 1, pageIndex + 1, cur.length, cur, ora.sizeOf cur⟩]

/-- The page loop of `splitPdfIntoBatches`.  `remaining` counts the pages
still to visit, so `pageIndex + remaining = maxPages` throughout and
`remaining = 0` detects the last page. -/
def splitGoPB (ora : SplitOracle) (totalPages ppb : Nat) :
    Nat → Nat → List Nat → Nat → List PageBatch → List PageBatch
  | 0, _, _, _, acc => acc
  | r + 1, pageIndex, cur, curStart, acc =>
      let cur' := cur ++ [pageIndex]
      if ppb ≤ cur'.length ∨ r = 0 then
        let acc' := acc ++ emitBatch ora totalPages cur' curStart pageIndex acc.length
        splitGoPB ora totalPages ppb r (pageIndex + 1) [] (pageIndex + 1) acc'
      else
        splitGoPB ora totalPages ppb r (pageIndex + 1) cur' curStart acc

/-- `splitPdfIntoBatches` of pdfChunkService.js: visit the first
`min totalPages MAX_TOTAL_PAGES` pages, batching them into runs of at most
`pagesPerBatch`. -/
def splitPdfIntoBatches (ora : SplitOracle) (totalPages : Nat)
    (pagesPerBatch : Nat) : List PageBatch :=
  let maxPages := min totalPages MAX_TOTAL_PAGES
  splitGoPB ora totalPages pagesPerBatch maxPages 0 [] 0 []

/-! ## Analysis records and the Result Merger (`mergeExtractionResults`)

A record is the structured JSON object returned per unit by the AI call.
String fields that may be absent in the JS object are modelled as the empty
string: every operation the source performs on them (truthiness tests,
`indexOf` against a priority list, copying) treats `undefined` and `''`
identically.  `confidence_score` may be a number or absent/non-numeric,
modelled as `Option ℚ`. -/

structure AnalysisRecord where
  appl_no : JStr := []
  borrower_name : JStr := []
  property_address : JStr := []
  property_type : JStr := []
  state : JStr := []
  tsr_date : JStr := []
  ownership_title_chain_status : JStr := []
  encumbrances_adverse_entries : JStr := []
  subsequent_charges : JStr := []
  prior_charge_subsisting : JStr := []
  roc_charge_flag : JStr := []
  litigation_lis_pendens : JStr := []
  mutation_status : JStr := []
  revenue_municipal_dues : JStr := []
  land_use_zoning_status : JStr := []
  stamping_registration_issues : JStr := []
  mortgage_perfection_issues : JStr := []
  advocate_adverse_remarks : JStr := []
  risk_rating : JStr := []
  enforceability_decision : JStr := []
  enforceability_rationale : JStr := []
  recommended_actions : JStr := []
  confidence_score : Option ℚ := none
  document_name : JStr := []
  processed_at : JStr := []
  chunkedFlag : Bool := false
  chunksProcessedCount : Nat := 0
  processingStrategy : JStr := []
  tokensInputCount : Nat := 0
  tokensOutputCount : Nat := 0
deriving DecidableEq, Repr

/-- The placeholder string values skipped by the merger. -/
def unknownS : JStr := "Unknown".toList
def notInSectionS : JStr := "Not in this section".toList

/-- `String.prototype.includes`: substring test. -/
def jsIncludes : JStr → JStr → Bool
  | hay, needle =>
      needle.isPrefixOf hay ||
        (match hay with
         | [] => false
         | _ :: t => jsIncludes t needle)

/-- `String.prototype.toLowerCase`, adequate for the ASCII field values the
merger inspects. -/
def jsLower (s : JStr) : JStr := s.map Char.toLower

/-- `Array.prototype.indexOf`: first index of `s`, or `-1`. -/
def jsIndexOf (l : List JStr) (s : JStr) : Int :=
  match l with
  | [] => -1
  | x :: xs =>
      if x = s then 0
      else
        let r := jsIndexOf xs s
        if r = -1 then -1 else r + 1

/-- Risk priority of the merger (lower index = more severe). -/
def riskPriority : List JStr :=
  ["High".toList, "Medium".toList, "Low".toList,
   "Manual Review Required".toList, "Unknown".toList]

/-- Enforceability priority of the merger (lower index = more severe). -/
def enforceabilityPriority : List JStr :=
  ["Not Enforceable".toList, "Enforceable with Conditions".toList,
   "Enforceable".toList, "Manual Review Required".toList, "Unknown".toList]

/-- Merge rule for the four concatenated narrative fields. -/
def concatMerge (mv rv : JStr) : JStr :=
  if rv ≠ [] ∧ rv ≠ unknownS ∧ rv ≠ notInSectionS then
    if mv ≠ [] ∧ mv ≠ unknownS ∧ mv ≠ notInSectionS then
      if jsIncludes mv rv = false then mv ++ "; ".toList ++ rv else mv
    else rv
  else mv

/-- Merge rule for the two severity fields: the incoming value overrides
only when it occurs in the priority list and is strictly more severe (or the
current value is not in the list). -/
def sevMerge (prio : List JStr) (mv rv : JStr) : JStr :=
  let ci := jsIndexOf prio mv
  let ni := jsIndexOf prio rv
  if ni ≠ -1 ∧ (ci = -1 ∨ ni < ci) then rv else mv

/-- Merge rule for yes-overrides fields: any value starting with `yes`
(case-insensitively) overrides. -/
def yesMerge (mv rv : JStr) : JStr :=
  if rv ≠ [] ∧ "yes".toList.isPrefixOf (jsLower rv) then rv else mv

/-- Merge rule for first-valid fields: the current value is kept unless it
is still a placeholder and the incoming value is not. -/
def firstMerge (mv rv : JStr) : JStr :=
  if (mv = [] ∨ mv = unknownS ∨ mv = notInSectionS) ∧
      rv ≠ [] ∧ rv ≠ unknownS ∧ rv ≠ notInSectionS then rv
  else mv

/-- One iteration of the merger's loop over `validResults[1..]`. -/
def mergeStep (m r : AnalysisRecord) : AnalysisRecord :=
  { m with
    property_address := concatMerge m.property_address r.property_address
    enforceability_rationale :=
      concatMerge m.enforceability_rationale r.enforceability_rationale
    recommended_actions := concatMerge m.recommended_actions r.recommended_actions
    advocate_adverse_remarks :=
      concatMerge m.advocate_adverse_remarks r.advocate_adverse_remarks
    risk_rating := sevMerge riskPriority m.risk_rating r.risk_rating
    enforceability_decision :=
      sevMerge enforceabilityPriority m.enforceability_decision
        r.enforceability_decision
    encumbrances_adverse_entries :=
      yesMerge m.encumbrances_adverse_entries r.encumbrances_adverse_entries
    subsequent_charges := yesMerge m.subsequent_charges r.subsequent_charges
    prior_charge_subsisting :=
      yesMerge m.prior_charge_subsisting r.prior_charge_subsisting
    litigation_lis_pendens :=
      yesMerge m.litigation_lis_pendens r.litigation_lis_pendens
    stamping_registration_issues :=
      yesMerge m.stamping_registration_issues r.stamping_registration_issues
    mortgage_perfection_issues :=
      yesMerge m.mortgage_perfection_issues r.mortgage_perfection_issues
    appl_no := firstMerge m.appl_no r.appl_no
    borrower_name := firstMerge m.borrower_name r.borrower_name
    property_type := firstMerge m.property_type r.property_type
    state := firstMerge m.state r.state
    tsr_date := firstMerge m.tsr_date r.tsr_date
    roc_charge_flag := firstMerge m.roc_charge_flag r.roc_charge_flag
    mutation_status := firstMerge m.mutation_status r.mutation_status
    revenue_municipal_dues :=
      firstMerge m.revenue_municipal_dues r.revenue_municipal_dues
    land_use_zoning_status :=
      firstMerge m.land_use_zoning_status r.land_use_zoning_status
    ownership_title_chain_status :=
      firstMerge m.ownership_title_chain_status r.ownership_title_chain_status }

/-- `Math.round`: round half toward positive infinity. -/
def jsRound (q : ℚ) : Int := ⌊q + 1 / 2⌋

/-- `mergeExtractionResults` of pdfChunkService.js.  `none` entries model
the `null`/non-object results the source filters out. -/
def mergeExtractionResults (results : List (Option AnalysisRecord)) :
    Option AnalysisRecord :=
  let validResults := results.reduceOption
  match validResults with
  | [] => none
  | [r] => some r
  | r0 :: r1 :: rest =>
      let merged := (r1 :: rest).foldl mergeStep r0
      let scores : List ℚ := (r0 :: r1 :: rest).filterMap (·.confidence_score)
      let merged :=
        if scores ≠ [] then
          { merged with
            confidence_score :=
              some ((jsRound (scores.sum / (scores.length : ℚ)) : Int) : ℚ) }
        else merged
      some { merged with
              chunkedFlag := true
              chunksProcessedCount := validResults.length }

/-! ## Retry logic (`executeWithRetry` of claudeService.js)

The wrapped API call is abstracted as a map from attempt number to outcome,
and `Math.random()` jitter as a map from attempt number to a rational.  The
trace records the result, the sleeps performed and the number of calls
made. -/

structure JsError where
  status : Option Int := none
  retryAfterSecs : Option Int := none
deriving DecidableEq, Repr

inductive CallOutcome (α : Type)
  | ok (a : α)
  | err (e : JsError)

/-- `RATE_LIMIT_CONFIG` of claudeService.js. -/
def maxRetries : Nat := 5
def baseDelayMs : ℚ := 2000
def maxDelayMs : ℚ := 120000
def jitterMs : ℚ := 1000

/-- `calculateBackoffDelay`: capped exponential backoff plus jitter. -/
def calculateBackoffDelay (attempt : Nat) (jitter : ℚ) : ℚ :=
  min (baseDelayMs * 2 ^ attempt) maxDelayMs + jitter

/-- `error.status === 429 || error.status === 529`. -/
def isRateLimitedErr (e : JsError) : Bool :=
  e.status = some 429 || e.status = some 529

/-- `error.status >= 500 && error.status < 600` (false when absent). -/
def isServerErr (e : JsError) : Bool :=
  match e.status with
  | some s => decide (500 ≤ s ∧ s < 600)
  | none => false

def isRetryable (e : JsError) : Bool := isRateLimitedErr e || isServerErr e

structure RetryTrace (α : Type) where
  outcome : Except (Option JsError) α
  delays : List ℚ
  callsMade : Nat

/-- The attempt loop of `executeWithRetry`.  `remaining` equals
`maxRetries - attempt`, so the `0` case (returning the stale `lastError`,
the source's unreachable trailing `throw lastError`) is never hit when the
loop starts at `attempt = 0`, `remaining = maxRetries ≥ 1`. -/
def ewrGo (calls : Nat → CallOutcome α) (jitter : Nat → ℚ) :
    Nat → Nat → List ℚ → Nat → Option JsError → RetryTrace α
  | _, 0, ds, n, lastE => ⟨.error lastE, ds, n⟩
  | attempt, r + 1, ds, n, _ =>
      match calls attempt with
      | .ok a => ⟨.ok a, ds, n + 1⟩
      | .err e =>
          if isRetryable e = false ∨ attempt = maxRetries - 1 then
            ⟨.error (some e), ds, n + 1⟩
          else
            let d0 := calculateBackoffDelay attempt (jitter attempt)
            let d :=
              match e.retryAfterSecs with
              | some ra => max d0 ((ra : ℚ) * 1000)
              | none => d0
            ewrGo calls jitter (attempt + 1) r (ds ++ [d]) (n + 1) (some e)

/-- `executeWithRetry` of claudeService.js. -/
def executeWithRetry (calls : Nat → CallOutcome α) (jitter : Nat → ℚ) :
    RetryTrace α :=
  ewrGo calls jitter 0 maxRetries [] 0 none

/-! ## Failure placeholder (`getFailedExtractionResult` of claudeService.js) -/

def getFailedExtractionResult (errorMessage : JStr) : AnalysisRecord :=
  { appl_no := "EXTRACTION_FAILED".toList
    borrower_name := unknownS
    property_address := unknownS
    property_type := unknownS
    state := unknownS
    tsr_date := unknownS
    ownership_title_chain_status := unknownS
    encumbrances_adverse_entries := unknownS
    subsequent_charges := unknownS
    prior_charge_subsisting := unknownS
    roc_charge_flag := unknownS
    litigation_lis_pendens := unknownS
    mutation_status := unknownS
    revenue_municipal_dues := unknownS
    land_use_zoning_status := unknownS
    stamping_registration_issues := unknownS
    mortgage_perfection_issues := unknownS
    advocate_adverse_remarks := unknownS
    risk_rating := "Manual Review Required".toList
    enforceability_decision := "Manual Review Required".toList
    enforceability_rationale :=
      "Document processing failed: ".toList ++ errorMessage
    recommended_actions :=
      "1. Manual review required\n2. Re-upload document if corrupted".toList
    confidence_score := some 0 }

/-! ## The analysis loop (`processAnalysis` of the job orchestrator)

The per-document work (S3 read, strategy analysis, `analyzeDocument`) is
abstracted as a fate oracle indexed by position in the run's pending list:
either `analyzeDocument` returned a result object, or an exception was
thrown somewhere in the iteration's `try` block. -/

inductive DocStatus
  | pending
  | completed
  | failed
deriving DecidableEq, Repr

structure QDoc where
  key : JStr
  name : JStr
  dtype : JStr := ".pdf".toList
  size : Nat := 0
  status : DocStatus
deriving DecidableEq, Repr

structure FailedDoc where
  name : JStr
  reason : JStr
deriving DecidableEq, Repr

/-- The job's work ledger (`queue.json`). -/
structure QueueState where
  documents : List QDoc
  results : List AnalysisRecord := []
  failedDocuments : List FailedDoc := []
  processedCount : Nat := 0
  totalTokensInput : Nat := 0
  totalTokensOutput : Nat := 0
  qstatus : JStr := []
deriving DecidableEq, Repr

/-- The object `analyzeDocument` resolves with: `success`, optional `data`
record, error message, token usage and chunking metadata. -/
structure AnalyzeResult where
  success : Bool
  data : Option AnalysisRecord := none
  errMsg : JStr := []
  tokensInput : Nat := 0
  tokensOutput : Nat := 0
  chunksProcessed : Nat := 0
  strategy : JStr := []
deriving DecidableEq, Repr

/-- The failure object returned by `analyzeDocument`'s catch paths
(claudeService.js): `success: false` with a `getFailedExtractionResult`
placeholder as `data`. -/
def analyzeDocumentErrResult (errorMessage : JStr) : AnalyzeResult :=
  { success := false
    data := some (getFailedExtractionResult errorMessage)
    errMsg := errorMessage }

/-- Fate of one pending document's loop iteration. -/
inductive DocFate
  | returned (res : AnalyzeResult)
  | thrown (msg : JStr) (isRateLimit : Bool)

/-- Set the status of the document at index `j` (the orchestrator mutates
`queueData.documents[docIndex].status` in place). -/
def setDocStatus : List QDoc → Nat → DocStatus → List QDoc
  | [], _, _ => []
  | d :: ds, 0, s => { d with status := s } :: ds
  | d :: ds, j + 1, s => d :: setDocStatus ds j s

/-- `Array.prototype.findIndex`, as an option (the source's `-1` is the
`none` case; it would index a phantom element and is handled as a no-op). -/
def jsFindIndex (p : QDoc → Bool) : List QDoc → Option Nat
  | [] => none
  | d :: ds => if p d then some 0 else (jsFindIndex p ds).map (· + 1)

/-- The confidence score the loop reads off a result:
`result.data?.confidence_score ?? 0` in effect. -/
def resultConfidence (res : AnalyzeResult) : ℚ :=
  match res.data with
  | some rec =>
      match rec.confidence_score with
      | some c => c
      | none => 0
  | none => 0

/-- Reason recorded for a document routed to manual review. -/
def failReason (res : AnalyzeResult) (conf : ℚ) : JStr :=
  if res.success = false then
    (if res.errMsg = [] then "API call failed".toList else res.errMsg)
  else if conf = 0 then "Zero confidence score".toList
  else "Missing confidence score".toList

/-- The enrichment the success branch performs on `result.data` before
pushing it: document name, timestamp, chunking metadata when
`result.chunksProcessed` is truthy, and token counts. -/
def withMeta (rec : AnalysisRecord) (docName now : JStr)
    (res : AnalyzeResult) : AnalysisRecord :=
  let r1 := { rec with document_name := docName, processed_at := now }
  let r2 :=
    if res.chunksProcessed ≠ 0 then
      { r1 with
        processingStrategy := res.strategy
        chunksProcessedCount := res.chunksProcessed }
    else r1
  { r2 with
    tokensInputCount := res.tokensInput
    tokensOutputCount := res.tokensOutput }

/-- One iteration of the `processAnalysis` loop, for the `i`-th pending
document `d`. -/
def stepDoc (fate : Nat → DocFate) (now : JStr) (i : Nat) (d : QDoc)
    (q : QueueState) : QueueState :=
  let j? := jsFindIndex (fun x => x.key = d.key) q.documents
  let setSt := fun (s : DocStatus) =>
    match j? with
    | some j => setDocStatus q.documents j s
    | none => q.documents
  match fate i with
  | .thrown msg isRL =>
      { q with
        documents := setSt .failed
        failedDocuments := q.failedDocuments ++
          [⟨d.name,
            if isRL then "Rate limit exceeded after retries".toList
            else msg⟩] }
  | .returned res =>
      let conf := resultConfidence res
      if res.success = true ∧ 0 < conf then
        match res.data with
        | some rec =>
            { q with
              documents := setSt .completed
              results := q.results ++ [withMeta rec d.name now res]
              totalTokensInput := q.totalTokensInput + res.tokensInput
              totalTokensOutput := q.totalTokensOutput + res.tokensOutput
              processedCount := i + 1 }
        | none => q
      else
        { q with
          documents := setSt .failed
          failedDocuments :=
            q.failedDocuments ++ [⟨d.name, failReason res conf⟩]
          results := q.results ++
            (match res.data with
             | some rec =>
                 [{ rec with document_name := d.name, processed_at := now }]
             | none => [])
          processedCount := i + 1 }

/-- The loop over the run's pending documents.  The second component is the
trace of processed document keys, in processing order. -/
def processLoop (fate : Nat → DocFate) (now : JStr) :
    List QDoc → Nat → QueueState → QueueState × List JStr
  | [], _, q => (q, [])
  | d :: ds, i, q =>
      let r := processLoop fate now ds (i + 1) (stepDoc fate now i d q)
      (r.1, d.key :: r.2)

/-- `processAnalysis` of the job orchestrator: select the pending documents
of the reloaded ledger, process them one at a time, and stamp the ledger
`analysis-complete`.  With no pending documents it returns immediately. -/
def processAnalysis (fate : Nat → DocFate) (now : JStr) (q : QueueState) :
    QueueState × List JStr :=
  let pend := q.documents.filter (fun d => d.status = DocStatus.pending)
  if pend.isEmpty then (q, [])
  else
    let r := processLoop fate now pend 0 q
    ({ r.1 with qstatus := "analysis-complete".toList }, r.2)

/-- Spec-level characterization: the result rows one loop iteration
appends for a document with the given fate. -/
def rowsOf (f : DocFate) (d : QDoc) (now : JStr) : List AnalysisRecord :=
  match f with
  | .thrown _ _ => []
  | .returned res =>
      let conf := resultConfidence res
      if res.success = true ∧ 0 < conf then
        match res.data with
        | some rec => [withMeta rec d.name now res]
        | none => []
      else
        match res.data with
        | some rec => [{ rec with document_name := d.name, processed_at := now }]
        | none => []

/-- Spec-level characterization: the failed-document rows one loop
iteration appends for a document with the given fate. -/
def failRowsOf (f : DocFate) (d : QDoc) : List FailedDoc :=
  match f with
  | .thrown msg isRL =>
      [⟨d.name,
        if isRL then "Rate limit exceeded after retries".toList else msg⟩]
  | .returned res =>
      let conf := resultConfidence res
      if res.success = true ∧ 0 < conf then []
      else [⟨d.name, failReason res conf⟩]

/-! ## Concrete fixtures used by witnesses and counterexamples -/

/-- A rate-limited error without a retry hint. -/
def rlErr : JsError := { status := some 429 }

/-- Call sequence that is rate-limited on attempts 0 and 1 and succeeds on
attempt 2. -/
def callsRL : Nat → CallOutcome Nat := fun n =>
  if n = 0 then .err rlErr else if n = 1 then .err rlErr else .ok 42

/-- Zero jitter. -/
def zeroJitter : Nat → ℚ := fun _ => 0

/-- A split oracle for a healthy document: every batch serializes to 100
bytes and nothing throws. -/
def oraOk : SplitOracle :=
  { sizeOf := fun _ => 100, batchFails := fun _ => false,
    pageFails := fun _ => false }

/-- Severity rank of a value in a priority list: its first index (the list
length when absent).  Lower rank = more severe. -/
def sevRank (l : List JStr) (s : JStr) : Nat :=
  match l with
  | [] => 0
  | x :: xs => if x = s then 0 else sevRank xs s + 1

/-- A record with every field at its defaulted (absent) value. -/
def recBase : AnalysisRecord := {}

/-- Record with confidence score 80. -/
def recConf80 : AnalysisRecord := { recBase with confidence_score := some 80 }

/-- Record with confidence score 85. -/
def recConf85 : AnalysisRecord := { recBase with confidence_score := some 85 }

/-- Low-risk record. -/
def recLow : AnalysisRecord :=
  { recBase with
    risk_rating := "Low".toList
    enforceability_decision := "Enforceable".toList }

/-- High-risk record. -/
def recHigh : AnalysisRecord :=
  { recBase with
    risk_rating := "High".toList
    enforceability_decision := "Not Enforceable".toList }

/-- Medium-risk record. -/
def recMed : AnalysisRecord :=
  { recBase with
    risk_rating := "Medium".toList
    enforceability_decision := "Enforceable with Conditions".toList }

/-- Record with confidence score 60. -/
def recConf60 : AnalysisRecord := { recBase with confidence_score := some 60 }

/-- Record with confidence score 100. -/
def recConf100 : AnalysisRecord := { recBase with confidence_score := some 100 }

/-- A ten-document ledger: six completed, one failed, three pending. -/
def q10 : QueueState :=
  { documents :=
      [⟨"k1".toList, "doc1".toList, ".pdf".toList, 0, .completed⟩,
       ⟨"k2".toList, "doc2".toList, ".pdf".toList, 0, .completed⟩,
       ⟨"k3".toList, "doc3".toList, ".pdf".toList, 0, .completed⟩,
       ⟨"k4".toList, "doc4".toList, ".pdf".toList, 0, .completed⟩,
       ⟨"k5".toList, "doc5".toList, ".pdf".toList, 0, .completed⟩,
       ⟨"k6".toList, "doc6".toList, ".pdf".toList, 0, .completed⟩,
       ⟨"k7".toList, "doc7".toList, ".pdf".toList, 0, .failed⟩,
       ⟨"k8".toList, "doc8".toList, ".pdf".toList, 0, .pending⟩,
       ⟨"k9".toList, "doc9".toList, ".pdf".toList, 0, .pending⟩,
       ⟨"k10".toList, "doc10".toList, ".pdf".toList, 0, .pending⟩]
    processedCount := 6 }

/-- A fate oracle whose every document analysis succeeds with confidence
80. -/
def fateOk : Nat → DocFate := fun _ =>
  .returned { success := true, data := some recConf80 }

/-- A fate oracle whose every document processing throws. -/
def fateThrow : Nat → DocFate := fun _ =>
  .thrown "S3 read failed".toList false

/-- A one-document ledger with the document pending. -/
def qOnePending : QueueState :=
  { documents := [⟨"k1".toList, "doc1".toList, ".pdf".toList, 0, .pending⟩] }

/-! # Theorems -/

/-! ## C2: strategy selection -/

/-- The strategy field of a successfully parsed analysis is exactly the
source's if-chain over size and scannedness. -/
theorem analyzePdf_parsed_strategy (fs pc tl : Nat) :
    (analyzePdf fs (.parsed pc tl)).strategy =
      (if fs ≤ MAX_DIRECT_PDF_SIZE ∧
            (analyzePdf fs (.parsed pc tl)).isScannedPdf = false then
         Strategy.directText
       else if fs ≤ MAX_DIRECT_PDF_SIZE then Strategy.directPdf
       else if (analyzePdf fs (.parsed pc tl)).isScannedPdf = false ∧
            MIN_TEXT_LENGTH < tl then Strategy.textChunk
       else Strategy.pageSplit) := rfl

/-- C2, counterexample: the claim says a document at or under
`MAX_DIRECT_PDF_SIZE` never gets strategy `text-chunk` or `page-split`, but
when the `pdf-parse` read throws and the `pdf-lib` fallback succeeds,
`analyzePdf` returns `page-split` regardless of size: a 1000-byte document
on the fallback path gets `page-split`. -/
theorem analyzePdf_small_fallback_cex :
    1000 ≤ MAX_DIRECT_PDF_SIZE ∧
      (analyzePdf 1000 (.parseFailedLibOk 3)).strategy = Strategy.pageSplit := by
  constructor
  · decide
  · rfl

/-- C2, amended: on the successful-parse path the decision table holds
exactly as claimed — in particular a document at or under the direct-size
threshold never gets `text-chunk` or `page-split`; on the
pdf-parse-failure/pdf-lib-success path the strategy is `page-split`
regardless of size, and when both reads fail it is `direct-pdf`. -/
theorem analyzePdf_decision_table (fs pc tl : Nat) :
    (fs ≤ MAX_DIRECT_PDF_SIZE →
        (analyzePdf fs (.parsed pc tl)).strategy ≠ Strategy.textChunk ∧
        (analyzePdf fs (.parsed pc tl)).strategy ≠ Strategy.pageSplit) ∧
    (fs ≤ MAX_DIRECT_PDF_SIZE →
        (analyzePdf fs (.parsed pc tl)).isScannedPdf = false →
        (analyzePdf fs (.parsed pc tl)).strategy = Strategy.directText) ∧
    (fs ≤ MAX_DIRECT_PDF_SIZE →
        (analyzePdf fs (.parsed pc tl)).isScannedPdf = true →
        (analyzePdf fs (.parsed pc tl)).strategy = Strategy.directPdf) ∧
    (MAX_DIRECT_PDF_SIZE < fs →
        (analyzePdf fs (.parsed pc tl)).isScannedPdf = false →
        MIN_TEXT_LENGTH < tl →
        (analyzePdf fs (.parsed pc tl)).strategy = Strategy.textChunk) ∧
    (MAX_DIRECT_PDF_SIZE < fs →
        (analyzePdf fs (.parsed pc tl)).isScannedPdf = true →
        (analyzePdf fs (.parsed pc tl)).strategy = Strategy.pageSplit) ∧
    (analyzePdf fs (.parseFailedLibOk pc)).strategy = Strategy.pageSplit ∧
    (analyzePdf fs .bothFailed).strategy = Strategy.directPdf := by
  have hs := analyzePdf_parsed_strategy fs pc tl
  refine ⟨?_, ?_, ?_, ?_, ?_, rfl, rfl⟩
  · intro hsz
    rw [hs]
    by_cases hb : (analyzePdf fs (.parsed pc tl)).isScannedPdf = false
    · rw [if_pos ⟨hsz, hb⟩]; exact ⟨by simp, by simp⟩
    · rw [if_neg (by tauto), if_pos hsz]; exact ⟨by simp, by simp⟩
  · intro hsz hb
    rw [hs, if_pos ⟨hsz, hb⟩]
  · intro hsz hb
    rw [hs, if_neg (by simp [hb]), if_pos hsz]
  · intro hsz hb htl
    rw [hs, if_neg (by omega), if_neg (by omega), if_pos ⟨hb, htl⟩]
  · intro hsz hb
    rw [hs, if_neg (by omega), if_neg (by omega), if_neg (by simp [hb])]

/-- Witness for C2's amended decision table: a 1000-byte, 10-page document
with 2000 characters of text is not scanned and gets `direct-text`. -/
theorem analyzePdf_decision_table_witness :
    (analyzePdf 1000 (.parsed 10 2000)).isScannedPdf = false ∧
      (analyzePdf 1000 (.parsed 10 2000)).strategy = Strategy.directText :=
  ⟨by decide,
   (analyzePdf_decision_table 1000 10 2000).2.1 (by decide) (by decide)⟩

/-! ## C7: retry policy -/

theorem calcBackoff_zero_ge (j : ℚ) (hj : 0 ≤ j) :
    baseDelayMs ≤ calculateBackoffDelay 0 j := by
  unfold calculateBackoffDelay baseDelayMs maxDelayMs
  norm_num
  linarith

theorem calcBackoff_one_ge (j : ℚ) (hj : 0 ≤ j) :
    2 * baseDelayMs ≤ calculateBackoffDelay 1 j := by
  unfold calculateBackoffDelay baseDelayMs maxDelayMs
  norm_num
  linarith

/-- The delay actually slept on a retry (backoff-with-jitter, raised to the
server's retry hint when one is present). -/
theorem retryDelay_ge (e : JsError) (a : Nat) (j : ℚ) (b : ℚ)
    (hb : b ≤ calculateBackoffDelay a j) :
    b ≤ (match e.retryAfterSecs with
         | some ra => max (calculateBackoffDelay a j) ((ra : ℚ) * 1000)
         | none => calculateBackoffDelay a j) := by
  cases e.retryAfterSecs with
  | none => exact hb
  | some ra => exact le_trans hb (le_max_left _ _)

/-- C7: an invocation rate-limited (429/529) on the first two attempts and
successful on the third returns that single success after exactly three
calls, with the two inserted delays at least `baseDelay` and
`2 × baseDelay` respectively (before jitter); non-retryable errors are
thrown immediately after one call with no delay; and when all `maxRetries`
attempts fail with retryable errors, the last error propagates. -/
theorem executeWithRetry_policy :
    (∀ (α : Type) (v : α) (calls : Nat → CallOutcome α) (jitter : Nat → ℚ)
        (e0 e1 : JsError),
        (∀ n, 0 ≤ jitter n) →
        calls 0 = .err e0 → calls 1 = .err e1 → calls 2 = .ok v →
        isRateLimitedErr e0 = true → isRateLimitedErr e1 = true →
        ∃ d0 d1,
          executeWithRetry calls jitter = ⟨.ok v, [d0, d1], 3⟩ ∧
            baseDelayMs ≤ d0 ∧ 2 * baseDelayMs ≤ d1) ∧
    (∀ (α : Type) (calls : Nat → CallOutcome α) (jitter : Nat → ℚ)
        (e : JsError),
        calls 0 = .err e → isRetryable e = false →
        executeWithRetry calls jitter =
          ⟨.error (some e), ([] : List ℚ), 1⟩) ∧
    (∀ (α : Type) (calls : Nat → CallOutcome α) (jitter : Nat → ℚ)
        (es : Nat → JsError),
        (∀ i, i < maxRetries → calls i = .err (es i)) →
        (∀ i, isRetryable (es i) = true) →
        (executeWithRetry calls jitter).outcome = .error (some (es 4)) ∧
          (executeWithRetry calls jitter).callsMade = 5 ∧
          (executeWithRetry calls jitter).delays.length = 4) := by
  refine ⟨?_, ?_, ?_⟩
  · intro α v calls jitter e0 e1 hj h0 h1 h2 hr0 hr1
    have hR0 : isRetryable e0 = true := by simp [isRetryable, hr0]
    have hR1 : isRetryable e1 = true := by simp [isRetryable, hr1]
    refine ⟨_, _,
      by simp [executeWithRetry, ewrGo, maxRetries, h0, h1, h2, hR0, hR1],
      retryDelay_ge e0 0 (jitter 0) _ (le_refl _) |>.trans' ?_,
      retryDelay_ge e1 1 (jitter 1) _ (le_refl _) |>.trans' ?_⟩
    · exact calcBackoff_zero_ge _ (hj 0)
    · exact calcBackoff_one_ge _ (hj 1)
  · intro α calls jitter e h0 hnr
    simp [executeWithRetry, ewrGo, maxRetries, h0, hnr]
  · intro α calls jitter es hs hre
    have h0 := hs 0 (by norm_num [maxRetries])
    have h1 := hs 1 (by norm_num [maxRetries])
    have h2 := hs 2 (by norm_num [maxRetries])
    have h3 := hs 3 (by norm_num [maxRetries])
    have h4 := hs 4 (by norm_num [maxRetries])
    refine ⟨?_, ?_, ?_⟩ <;>
      simp [executeWithRetry, ewrGo, maxRetries, h0, h1, h2, h3, h4,
        hre 0, hre 1, hre 2, hre 3, hre 4]

/-- Witness for C7: the concrete two-rate-limits-then-success call sequence
with zero jitter. -/
theorem executeWithRetry_policy_witness :
    ∃ d0 d1,
      executeWithRetry callsRL zeroJitter = ⟨.ok 42, [d0, d1], 3⟩ ∧
        baseDelayMs ≤ d0 ∧ 2 * baseDelayMs ≤ d1 :=
  executeWithRetry_policy.1 Nat 42 callsRL zeroJitter rlErr rlErr
    (fun _ => le_refl 0) rfl rfl rfl (by decide) (by decide)

/-! ## C4: page batching coverage -/

/-- One-step unfolding of the page loop. -/
theorem splitGoPB_succ_eq (ora : SplitOracle) (tp ppb r pi : Nat)
    (cur : List Nat) (cs : Nat) (acc : List PageBatch) :
    splitGoPB ora tp ppb (r + 1) pi cur cs acc =
      (if ppb ≤ (cur ++ [pi]).length ∨ r = 0 then
        splitGoPB ora tp ppb r (pi + 1) [] (pi + 1)
          (acc ++ emitBatch ora tp (cur ++ [pi]) cs pi acc.length)
      else splitGoPB ora tp ppb r (pi + 1) (cur ++ [pi]) cs acc) := rfl

theorem emitSingles_pages (ora : SplitOracle) (tp : Nat) (pis : List Nat)
    (idx : Nat) (hnf : ∀ p ∈ pis, ora.pageFails p = false) :
    ((emitSingles ora tp pis idx).map (·.pages)).flatten = pis := by
  induction pis generalizing idx with
  | nil => rfl
  | cons p ps ih =>
      have hp : ora.pageFails p = false := hnf p (List.mem_cons_self _ _)
      have hps : ∀ q ∈ ps, ora.pageFails q = false := fun q hq =>
        hnf q (List.mem_cons_of_mem _ hq)
      simp [emitSingles, hp, ih (idx + 1) hps]

theorem emitSingles_len (ora : SplitOracle) (tp : Nat) (pis : List Nat)
    (idx : Nat) :
    ∀ b ∈ emitSingles ora tp pis idx, b.pages.length = 1 := by
  induction pis generalizing idx with
  | nil => intro b hb; cases hb
  | cons p ps ih =>
      intro b hb
      by_cases hp : ora.pageFails p = true
      · exact ih (idx) b (by simpa [emitSingles, hp] using hb)
      · rcases List.mem_cons.mp
          (by simpa [emitSingles, eq_false_of_ne_true hp] using hb) with
          h | h
        · rw [h]; rfl
        · exact ih (idx + 1) b h

theorem emitBatch_pages (ora : SplitOracle) (tp : Nat) (cur : List Nat)
    (cs pi idx : Nat) (hnf : ∀ p ∈ cur, ora.pageFails p = false) :
    ((emitBatch ora tp cur cs pi idx).map (·.pages)).flatten = cur := by
  unfold emitBatch
  split_ifs
  · exact emitSingles_pages ora tp cur idx hnf
  · exact emitSingles_pages ora tp cur idx hnf
  · simp

theorem emitBatch_len (ora : SplitOracle) (tp : Nat) (cur : List Nat)
    (cs pi idx ppb : Nat) (hlen : cur.length ≤ ppb) (hppb : 1 ≤ ppb) :
    ∀ b ∈ emitBatch ora tp cur cs pi idx, b.pages.length ≤ ppb := by
  unfold emitBatch
  split_ifs
  · intro b hb
    rw [emitSingles_len ora tp cur idx b hb]
    exact hppb
  · intro b hb
    rw [emitSingles_len ora tp cur idx b hb]
    exact hppb
  · intro b hb
    rcases List.mem_singleton.mp hb with rfl
    exact hlen

theorem splitGoPB_pages (ora : SplitOracle) (tp ppb : Nat) :
    ∀ (r pi : Nat) (cur : List Nat) (cs : Nat) (acc : List PageBatch),
      1 ≤ r →
      (∀ i, pi ≤ i → i < pi + r → ora.pageFails i = false) →
      (∀ p ∈ cur, ora.pageFails p = false) →
      ((splitGoPB ora tp ppb r pi cur cs acc).map (·.pages)).flatten =
        (acc.map (·.pages)).flatten ++ cur ++ List.range' pi r := by
  intro r
  induction r with
  | zero => intro pi cur cs acc h1; exact absurd h1 (by norm_num)
  | succ n ih =>
      intro pi cur cs acc _ hnf hnfc
      have hpi : ora.pageFails pi = false := hnf pi (le_refl _) (by omega)
      have hnfc' : ∀ p ∈ cur ++ [pi], ora.pageFails p = false := by
        intro p hp
        rcases List.mem_append.mp hp with h | h
        · exact hnfc p h
        · rcases List.mem_singleton.mp h with rfl; exact hpi
      cases n with
      | zero =>
          rw [splitGoPB_succ_eq, if_pos (Or.inr rfl)]
          show ((splitGoPB ora tp ppb 0 _ _ _ _).map (·.pages)).flatten = _
          simp only [splitGoPB, List.map_append, List.flatten_append]
          rw [emitBatch_pages ora tp (cur ++ [pi]) cs pi acc.length hnfc']
          simp [List.range'_succ]
      | succ m =>
          have hnf' : ∀ i, pi + 1 ≤ i → i < (pi + 1) + (m + 1) →
              ora.pageFails i = false := fun i h1 h2 =>
            hnf i (by omega) (by omega)
          rw [splitGoPB_succ_eq]
          by_cases hfin : ppb ≤ (cur ++ [pi]).length ∨ (m + 1 : Nat) = 0
          · rw [if_pos hfin]
            rw [ih (pi + 1) [] (pi + 1)
                (acc ++ emitBatch ora tp (cur ++ [pi]) cs pi acc.length)
                (by omega) hnf' (by intro p hp; cases hp)]
            simp only [List.map_append, List.flatten_append]
            rw [emitBatch_pages ora tp (cur ++ [pi]) cs pi acc.length hnfc']
            simp [List.range'_succ]
          · rw [if_neg hfin]
            rw [ih (pi + 1) (cur ++ [pi]) cs acc (by omega) hnf' hnfc']
            simp [List.range'_succ]

theorem splitGoPB_len (ora : SplitOracle) (tp ppb : Nat) :
    ∀ (r pi : Nat) (cur : List Nat) (cs : Nat) (acc : List PageBatch),
      cur.length + 1 ≤ ppb →
      (∀ b ∈ acc, b.pages.length ≤ ppb) →
      ∀ b ∈ splitGoPB ora tp ppb r pi cur cs acc, b.pages.length ≤ ppb := by
  intro r
  induction r with
  | zero => intro pi cur cs acc _ hacc b hb; exact hacc b hb
  | succ n ih =>
      intro pi cur cs acc hlen hacc
      have hppb : 1 ≤ ppb := by omega
      have hcur' : (cur ++ [pi]).length ≤ ppb := by
        rw [List.length_append]
        simp only [List.length_cons, List.length_nil]
        omega
      rw [splitGoPB_succ_eq]
      by_cases hfin : ppb ≤ (cur ++ [pi]).length ∨ (n : Nat) = 0
      · rw [if_pos hfin]
        refine ih (pi + 1) [] (pi + 1) _ (by simp; omega) ?_
        intro b hb
        rcases List.mem_append.mp hb with h | h
        · exact hacc b h
        · exact emitBatch_len ora tp (cur ++ [pi]) cs pi acc.length ppb
            hcur' hppb b h
      · rw [if_neg hfin]
        refine ih (pi + 1) (cur ++ [pi]) cs acc ?_ hacc
        push_neg at hfin
        have h1 := hfin.1
        rw [List.length_append] at h1 ⊢
        simp only [List.length_cons, List.length_nil] at h1 ⊢
        omega

/-- C4: for every page-copy-healthy document, the concatenation of the page
lists of the emitted batches is exactly `[0, min totalPages MAX_TOTAL_PAGES)`
in order — no page duplicated, no page missing, pages beyond the safety
ceiling (and only those) dropped — and every batch holds at most
`pagesPerBatch` pages. -/
theorem splitPdfIntoBatches_coverage (ora : SplitOracle)
    (totalPages ppb : Nat) (hppb : 1 ≤ ppb)
    (hnf : ∀ i, i < min totalPages MAX_TOTAL_PAGES →
      ora.pageFails i = false) :
    ((splitPdfIntoBatches ora totalPages ppb).map (·.pages)).flatten =
      List.range (min totalPages MAX_TOTAL_PAGES) ∧
    ∀ b ∈ splitPdfIntoBatches ora totalPages ppb, b.pages.length ≤ ppb := by
  constructor
  · unfold splitPdfIntoBatches
    rcases Nat.eq_zero_or_pos (min totalPages MAX_TOTAL_PAGES) with h0 | hpos
    · rw [h0]; rfl
    · rw [splitGoPB_pages ora totalPages ppb (min totalPages MAX_TOTAL_PAGES)
          0 [] 0 [] hpos (by intro i _ h2; exact hnf i (by omega))
          (by intro p hp; cases hp)]
      simp [List.range_eq_range']
  · unfold splitPdfIntoBatches
    exact splitGoPB_len ora totalPages ppb (min totalPages MAX_TOTAL_PAGES)
      0 [] 0 [] (by simp; omega) (fun b hb => absurd hb (by simp))

/-- Witness for C4: a 7-page healthy document at 5 pages per batch covers
pages 0..6 with batches of at most 5 pages. -/
theorem splitPdfIntoBatches_coverage_witness :
    ((splitPdfIntoBatches oraOk 7 5).map (·.pages)).flatten =
      List.range (min 7 MAX_TOTAL_PAGES) ∧
    ∀ b ∈ splitPdfIntoBatches oraOk 7 5, b.pages.length ≤ 5 :=
  splitPdfIntoBatches_coverage oraOk 7 5 (by decide) (fun _ _ => rfl)

/-! ## C3: text chunking -/

theorem jsTrim_length_le (s : JStr) : (jsTrim s).length ≤ s.length := by
  unfold jsTrim
  calc ((s.dropWhile isJsWs).reverse.dropWhile isJsWs).reverse.length
      = ((s.dropWhile isJsWs).reverse.dropWhile isJsWs).length := by
        rw [List.length_reverse]
    _ ≤ (s.dropWhile isJsWs).reverse.length :=
        (List.dropWhile_sublist _).length_le
    _ = (s.dropWhile isJsWs).length := by rw [List.length_reverse]
    _ ≤ s.length := (List.dropWhile_sublist _).length_le

theorem jsTrim_ne_nil_of_mem (s : JStr) (c : Char) (hc : c ∈ s)
    (hw : isJsWs c = false) : jsTrim s ≠ [] := by
  intro h
  unfold jsTrim at h
  rw [List.reverse_eq_nil_iff, List.dropWhile_eq_nil_iff] at h
  have hc1 : c ∈ s.dropWhile isJsWs := by
    rcases (List.takeWhile_append_dropWhile isJsWs s) ▸ hc with h1
    rcases List.mem_append.mp h1 with h2 | h2
    · exact absurd (List.mem_takeWhile_imp h2) (by rw [hw]; exact
        Bool.false_ne_true)
    · exact h2
  have := h c (List.mem_reverse.mpr hc1)
  rw [hw] at this
  exact Bool.false_ne_true this

/-- A string whose head and last characters exist and are non-whitespace is
fixed by `jsTrim`. -/
theorem jsTrim_eq_self (p : JStr) (hp : p ≠ [])
    (hh : ∀ c, p.head? = some c → isJsWs c = false)
    (hl : ∀ c, p.getLast? = some c → isJsWs c = false) : jsTrim p = p := by
  unfold jsTrim
  have h1 : p.dropWhile isJsWs = p := by
    cases p with
    | nil => rfl
    | cons c t =>
        rw [List.dropWhile_cons, hh c rfl]
        simp
  rw [h1]
  have h2 : p.reverse.dropWhile isJsWs = p.reverse := by
    cases hpr : p.reverse with
    | nil => rfl
    | cons c t =>
        rw [List.dropWhile_cons]
        have hc : p.getLast? = some c := by
          rw [← List.head?_reverse, hpr]; rfl
        rw [hl c hc]
        simp
  rw [h2, List.reverse_reverse]

/-- Conversely, a nonempty `jsTrim`-fixed string has a non-whitespace head
character. -/
theorem trimInv_head (p : JStr) (hp : p ≠ []) (ht : jsTrim p = p) :
    ∀ c, p.head? = some c → isJsWs c = false := by
  intro c hc
  by_contra hw
  have hw' : isJsWs c = true := by
    cases h : isJsWs c
    · exact absurd h hw
    · rfl
  cases p with
  | nil => exact hp rfl
  | cons c0 t =>
      have hc0 : c0 = c := Option.some.inj hc
      subst hc0
      have hdrop : (c0 :: t).dropWhile isJsWs = t.dropWhile isJsWs := by
        rw [List.dropWhile_cons, hw']
        simp
      have hlen : (jsTrim (c0 :: t)).length ≤ (t.dropWhile isJsWs).length := by
        unfold jsTrim
        rw [hdrop]
        calc ((t.dropWhile isJsWs).reverse.dropWhile isJsWs).reverse.length
            = ((t.dropWhile isJsWs).reverse.dropWhile isJsWs).length := by
              rw [List.length_reverse]
          _ ≤ (t.dropWhile isJsWs).reverse.length :=
              (List.dropWhile_sublist _).length_le
          _ = (t.dropWhile isJsWs).length := by rw [List.length_reverse]
      have hlt : (t.dropWhile isJsWs).length ≤ t.length :=
        (List.dropWhile_sublist _).length_le
      rw [ht] at hlen
      simp only [List.length_cons] at hlen
      omega

/-- And a non-whitespace last character. -/
theorem trimInv_last (p : JStr) (hp : p ≠ []) (ht : jsTrim p = p) :
    ∀ c, p.getLast? = some c → isJsWs c = false := by
  intro c hc
  by_contra hw
  have hw' : isJsWs c = true := by
    cases h : isJsWs c
    · exact absurd h hw
    · rfl
  have h1 : p.dropWhile isJsWs = p := by
    cases p with
    | nil => exact absurd rfl hp
    | cons c0 t =>
        rw [List.dropWhile_cons, trimInv_head (c0 :: t) hp ht c0 rfl]
        simp
  have h2 : p.reverse.head? = some c := by rw [List.head?_reverse]; exact hc
  cases hpr : p.reverse with
  | nil =>
      rw [hpr] at h2; cases h2
  | cons c0 t =>
      have hc0 : c0 = c := by
        rw [hpr] at h2
        exact Option.some.inj h2
      subst hc0
      have hdrop : (c0 :: t).dropWhile isJsWs = t.dropWhile isJsWs := by
        rw [List.dropWhile_cons, hw']
        simp
      have hlen : (jsTrim p).length ≤ t.length := by
        unfold jsTrim
        rw [h1, hpr, hdrop]
        calc (List.dropWhile isJsWs t).reverse.length
            = (List.dropWhile isJsWs t).length := by rw [List.length_reverse]
          _ ≤ t.length := (List.dropWhile_sublist _).length_le
      rw [ht] at hlen
      have : p.length = t.length + 1 := by
        have := congrArg List.length hpr
        rw [List.length_reverse] at this
        simpa using this
      omega

theorem joinSep_cons_ne (x : JStr) (xs : List JStr) (h : xs ≠ []) :
    joinSep (x :: xs) = x ++ sepNN ++ joinSep xs := by
  cases xs with
  | nil => exact absurd rfl h
  | cons y ys => rfl

/-- `joinSep (p :: ps)` extends `p`. -/
theorem joinSep_cons_append (p : JStr) (ps : List JStr) :
    ∃ t, joinSep (p :: ps) = p ++ t := by
  cases ps with
  | nil => exact ⟨[], by simp [joinSep]⟩
  | cons y ys =>
      exact ⟨sepNN ++ joinSep (y :: ys), by
        rw [joinSep_cons_ne _ _ (by simp), List.append_assoc]⟩

/-- Output chunks are trims of the untrimmed accumulator strings. -/
theorem mkChunks_mem (us : List JStr) :
    ∀ (i : Nat) (c : TextChunk), c ∈ mkChunks i us →
      ∃ u ∈ us, c.content = jsTrim u ∧ c.charCount = u.length := by
  induction us with
  | nil => intro i c hc; cases hc
  | cons u us ih =>
      intro i c hc
      rcases List.mem_cons.mp hc with h | h
      · exact ⟨u, List.mem_cons_self _ _, by rw [h], by rw [h]⟩
      · rcases ih (i + 1) c h with ⟨v, hv, h1, h2⟩
        exact ⟨v, List.mem_cons_of_mem _ hv, h1, h2⟩

theorem mkChunks_contents (us : List JStr) :
    ∀ i : Nat, (mkChunks i us).map (·.content) = us.map jsTrim := by
  induction us with
  | nil => intro i; rfl
  | cons u us ih => intro i; simp [mkChunks, ih (i + 1)]

/-- Size invariant of the greedy accumulator: every flushed string and the
final accumulator either fits in `chunkSize + 2` characters (the uncounted
blank-line separator) or is a single input paragraph. -/
theorem chunkAccumGo_size (cs : Nat) (P0 : List JStr) :
    ∀ (ps : List JStr) (cur : JStr),
      (∀ p ∈ ps, p ∈ P0) →
      (cur.length ≤ cs + 2 ∨ cur ∈ P0) →
      ∀ u ∈ (chunkAccumGo cs ps cur).1 ++ [(chunkAccumGo cs ps cur).2],
        u.length ≤ cs + 2 ∨ u ∈ P0 := by
  intro ps
  induction ps with
  | nil =>
      intro cur _ hcur u hu
      rcases List.mem_singleton.mp (by simpa [chunkAccumGo] using hu) with rfl
      exact hcur
  | cons p ps ih =>
      intro cur hps hcur u hu
      have hp : p ∈ P0 := hps p (List.mem_cons_self _ _)
      have hps' : ∀ q ∈ ps, q ∈ P0 := fun q hq =>
        hps q (List.mem_cons_of_mem _ hq)
      by_cases hfl : cs < cur.length + p.length ∧ 0 < cur.length
      · rw [show chunkAccumGo cs (p :: ps) cur =
            ((cur :: (chunkAccumGo cs ps p).1), (chunkAccumGo cs ps p).2) by
            simp [chunkAccumGo, if_pos hfl]] at hu
        rw [List.cons_append] at hu
        rcases List.mem_cons.mp hu with h | h
        · exact h ▸ hcur
        · exact ih p hps' (Or.inr hp) u h
      · rw [show chunkAccumGo cs (p :: ps) cur =
            chunkAccumGo cs ps
              (cur ++ (if cur.isEmpty then [] else sepNN) ++ p) by
            simp [chunkAccumGo, if_neg hfl]] at hu
        refine ih _ hps' ?_ u hu
        by_cases hce : cur.isEmpty
        · rw [List.isEmpty_iff.mp hce]
          simpa using Or.inr hp
        · have hcne : cur ≠ [] := fun h => hce (by rw [h]; rfl)
          have hlen : cur.length + p.length ≤ cs := by
            rcases Decidable.not_and_iff_or_not.mp hfl with h | h
            · omega
            · exact absurd (List.length_pos.mpr hcne) h
          left
          rw [if_neg hce]
          simp only [List.length_append]
          simp [sepNN]
          omega

/-- Reconstruction invariant of the greedy accumulator: with a nonempty,
whitespace-trimmed accumulator and trim-fixed nonempty paragraphs, joining
all emitted strings with the blank-line separator reproduces the join of
the remaining input, and every emitted string again has non-whitespace
ends. -/
theorem chunkAccumGo_join (cs : Nat) :
    ∀ (ps : List JStr) (cur : JStr),
      cur ≠ [] →
      (∀ c, cur.head? = some c → isJsWs c = false) →
      (∀ c, cur.getLast? = some c → isJsWs c = false) →
      (∀ p ∈ ps, p ≠ [] ∧ jsTrim p = p) →
      joinSep ((chunkAccumGo cs ps cur).1 ++ [(chunkAccumGo cs ps cur).2]) =
          joinSep (cur :: ps) ∧
        ∀ u ∈ (chunkAccumGo cs ps cur).1 ++ [(chunkAccumGo cs ps cur).2],
          u ≠ [] ∧ (∀ c, u.head? = some c → isJsWs c = false) ∧
            ∀ c, u.getLast? = some c → isJsWs c = false := by
  intro ps
  induction ps with
  | nil =>
      intro cur hne hh hl _
      refine ⟨rfl, ?_⟩
      intro u hu
      rcases List.mem_singleton.mp (by simpa [chunkAccumGo] using hu) with rfl
      exact ⟨hne, hh, hl⟩
  | cons p ps ih =>
      intro cur hne hh hl hgood
      have hp := hgood p (List.mem_cons_self _ _)
      have hph := trimInv_head p hp.1 hp.2
      have hpl := trimInv_last p hp.1 hp.2
      have hgood' : ∀ q ∈ ps, q ≠ [] ∧ jsTrim q = q := fun q hq =>
        hgood q (List.mem_cons_of_mem _ hq)
      by_cases hfl : cs < cur.length + p.length ∧ 0 < cur.length
      · have hstep : chunkAccumGo cs (p :: ps) cur =
            ((cur :: (chunkAccumGo cs ps p).1), (chunkAccumGo cs ps p).2) := by
          simp [chunkAccumGo, if_pos hfl]
        obtain ⟨hJ, hM⟩ := ih p hp.1 hph hpl hgood'
        rw [hstep]
        constructor
        · show joinSep ((cur :: (chunkAccumGo cs ps p).1) ++
            [(chunkAccumGo cs ps p).2]) = _
          rw [List.cons_append, joinSep_cons_ne _ _ (by simp), hJ,
            joinSep_cons_ne cur (p :: ps) (by simp)]
        · intro u hu
          rw [List.cons_append] at hu
          rcases List.mem_cons.mp hu with h | h
          · exact h ▸ ⟨hne, hh, hl⟩
          · exact hM u h
      · have hce : cur.isEmpty = false := by
          cases h : cur.isEmpty
          · rfl
          · exact absurd (List.isEmpty_iff.mp h) hne
        have hstep : chunkAccumGo cs (p :: ps) cur =
            chunkAccumGo cs ps (cur ++ sepNN ++ p) := by
          simp [chunkAccumGo, if_neg hfl, hce]
        have hcne' : (cur ++ sepNN ++ p : JStr) ≠ [] := by
          simp [hne]
        have hh' : ∀ c, (cur ++ sepNN ++ p).head? = some c →
            isJsWs c = false := by
          intro c hc
          rw [List.append_assoc, List.head?_append] at hc
          cases hcur : cur.head? with
          | none => exact absurd (List.head?_eq_none_iff.mp hcur) hne
          | some c0 =>
              rw [hcur] at hc
              injection hc with h
              exact h ▸ hh c0 hcur
        have hl' : ∀ c, (cur ++ sepNN ++ p).getLast? = some c →
            isJsWs c = false := by
          intro c hc
          rw [List.getLast?_append] at hc
          cases hplast : p.getLast? with
          | none => exact absurd (List.getLast?_eq_none_iff.mp hplast) hp.1
          | some c0 =>
              rw [hplast] at hc
              injection hc with h
              exact h ▸ hpl c0 hplast
        obtain ⟨hJ, hM⟩ := ih (cur ++ sepNN ++ p) hcne' hh' hl' hgood'
        rw [hstep]
        refine ⟨?_, hM⟩
        rw [hJ, joinSep_cons_ne cur (p :: ps) (by simp)]
        cases ps with
        | nil => simp [joinSep]
        | cons y ys =>
            rw [joinSep_cons_ne (cur ++ sepNN ++ p) (y :: ys) (by simp),
              joinSep_cons_ne p (y :: ys) (by simp)]
            simp [List.append_assoc]

/-- The first step from the empty accumulator just loads the first
paragraph. -/
theorem chunkAccumGo_nil_cons (cs : Nat) (p : JStr) (ps : List JStr) :
    chunkAccumGo cs (p :: ps) [] = chunkAccumGo cs ps p := by
  simp [chunkAccumGo]

theorem splitParasGo_ne_nil :
    ∀ (fuel : Nat) (acc s : JStr), splitParasGo fuel acc s ≠ [] := by
  intro fuel
  induction fuel with
  | zero => intro acc s; simp [splitParasGo]
  | succ n ih =>
      intro acc s
      cases s with
      | nil => simp [splitParasGo]
      | cons c rest =>
          show splitParasGo (n + 1) acc (c :: rest) ≠ []
          unfold splitParasGo
          cases matchSep (c :: rest) with
          | none => exact ih (c :: acc) rest
          | some rest2 => simp

theorem jsSplitParas_ne_nil (s : JStr) : jsSplitParas s ≠ [] :=
  splitParasGo_ne_nil s.length [] s

/-- C3, counterexample: plain concatenation of the chunks does not
reproduce the original text (leading whitespace is trimmed away and a
`'\n \n'` paragraph boundary is normalized to `'\n\n'`), and a chunk's
content can exceed the target size by the uncounted separator: chunking
`'aaaa\n\nbbbbb'` at target 9 yields one chunk of 11 characters although
both paragraphs are at most 9 characters long. -/
theorem extractTextChunks_cex :
    ((extractTextChunks " a".toList 40000).map (·.content)).flatten ≠
        " a".toList ∧
      joinSep ((extractTextChunks " a".toList 40000).map (·.content)) ≠
        " a".toList ∧
      (extractTextChunks "aaaa\n\nbbbbb".toList 9).map (·.charCount) =
        [11] ∧
      (extractTextChunks "aaaa\n\nbbbbb".toList 9).map (·.content) =
        ["aaaa\n\nbbbbb".toList] ∧
      (∀ p ∈ jsSplitParas "aaaa\n\nbbbbb".toList, p.length ≤ 9) ∧
      joinSep ((extractTextChunks "a\n \nb".toList 100).map (·.content)) ≠
        "a\n \nb".toList := by
  refine ⟨?_, ?_, ?_, ?_, ?_, ?_⟩ <;> decide

/-- C3, amended: (size) every chunk's recorded character count is at most
the target size plus 2 (the blank-line separator the source does not count
when testing the limit) unless the chunk is a single paragraph longer than
the target, and the trimmed content is never longer than the recorded
count; (reconstruction) when the text is already normalized — every
paragraph nonempty and trim-fixed, and the paragraph separators exactly
`'\n\n'` — joining the chunk contents with blank-line separators
reproduces the original text, so chunking never splits, drops, duplicates
or reorders a paragraph. -/
theorem extractTextChunks_amended (text : JStr) (cs : Nat) :
    (∀ c ∈ extractTextChunks text cs,
      c.content.length ≤ c.charCount ∧
        (c.charCount ≤ cs + 2 ∨
          ∃ p ∈ jsSplitParas text, c.charCount = p.length ∧ cs < p.length ∧
            c.content = jsTrim p)) ∧
    ((text = joinSep (jsSplitParas text)) →
      (∀ p ∈ jsSplitParas text, p ≠ [] ∧ jsTrim p = p) →
      joinSep ((extractTextChunks text cs).map (·.content)) = text) := by
  constructor
  · intro c hc
    unfold extractTextChunks at hc
    split_ifs at hc with hemp
    · cases hc
    · obtain ⟨u, hu, hcont, hcount⟩ := mkChunks_mem _ 0 c hc
      have hu' : u ∈ (chunkAccumGo cs (jsSplitParas text) []).1 ++
          [(chunkAccumGo cs (jsSplitParas text) []).2] := by
        rcases List.mem_append.mp hu with h | h
        · exact List.mem_append.mpr (Or.inl h)
        · refine List.mem_append.mpr (Or.inr ?_)
          split_ifs at h
          · exact h
          · cases h
      have hsz := chunkAccumGo_size cs (jsSplitParas text)
        (jsSplitParas text) [] (fun p hp => hp) (Or.inl (by simp)) u hu'
      refine ⟨hcont ▸ hcount ▸ jsTrim_length_le u, ?_⟩
      rcases hsz with h | h
      · exact Or.inl (hcount ▸ h)
      · by_cases hle : u.length ≤ cs + 2
        · exact Or.inl (hcount ▸ hle)
        · exact Or.inr ⟨u, h, hcount, by omega, hcont⟩
  · intro h1 h2
    rcases hps : jsSplitParas text with _ | ⟨p, ps⟩
    · exact absurd hps (jsSplitParas_ne_nil text)
    · have hp := h2 p (hps ▸ List.mem_cons_self _ _)
      have hgood' : ∀ q ∈ ps, q ≠ [] ∧ jsTrim q = q := fun q hq =>
        h2 q (hps ▸ List.mem_cons_of_mem _ hq)
      -- the text has a non-whitespace character: the head of `p`
      obtain ⟨c0, hc0⟩ : ∃ c0, p.head? = some c0 := by
        cases p with
        | nil => exact absurd rfl hp.1
        | cons a t => exact ⟨a, rfl⟩
      have hc0w : isJsWs c0 = false := trimInv_head p hp.1 hp.2 c0 hc0
      have hc0p : c0 ∈ p := by
        cases p with
        | nil => cases hc0
        | cons a t =>
            injection hc0 with h
            exact h ▸ List.mem_cons_self _ _
      obtain ⟨t0, ht0⟩ := joinSep_cons_append p ps
      have hc0text : c0 ∈ text := by
        rw [h1, hps, ht0]
        exact List.mem_append.mpr (Or.inl hc0p)
      have htrimne : jsTrim text ≠ [] :=
        jsTrim_ne_nil_of_mem text c0 hc0text hc0w
      have hempf : (jsTrim text).isEmpty = false := by
        cases h : (jsTrim text).isEmpty
        · rfl
        · exact absurd (List.isEmpty_iff.mp h) htrimne
      unfold extractTextChunks
      rw [hps, hempf]
      simp only [Bool.false_eq_true, if_false]
      rw [chunkAccumGo_nil_cons]
      obtain ⟨hJ, hM⟩ := chunkAccumGo_join cs ps p hp.1
        (trimInv_head p hp.1 hp.2) (trimInv_last p hp.1 hp.2) hgood'
      have hlast := hM (chunkAccumGo cs ps p).2
        (List.mem_append.mpr (Or.inr (List.mem_singleton.mpr rfl)))
      -- the final accumulator has nonempty trim, so it is kept
      obtain ⟨cl, hcl⟩ : ∃ cl, (chunkAccumGo cs ps p).2.head? = some cl := by
        cases hll : (chunkAccumGo cs ps p).2 with
        | nil => exact absurd hll hlast.1
        | cons a t => exact ⟨a, rfl⟩
      have hclw : isJsWs cl = false := hlast.2.1 cl hcl
      have hclm : cl ∈ (chunkAccumGo cs ps p).2 :=
        List.mem_of_mem_head? (Option.mem_def.mpr hcl)
      have hkeep : 0 < (jsTrim (chunkAccumGo cs ps p).2).length :=
        List.length_pos.mpr (jsTrim_ne_nil_of_mem _ cl hclm hclw)
      rw [if_pos hkeep, mkChunks_contents]
      have hall : ∀ u ∈ (chunkAccumGo cs ps p).1 ++
          [(chunkAccumGo cs ps p).2], jsTrim u = u := by
        intro u hu
        obtain ⟨hune, huh, hul⟩ := hM u hu
        exact jsTrim_eq_self u hune huh hul
      rw [List.map_congr_left hall]
      simp only [List.map_id']
      rw [hJ, ← hps]
      exact h1.symm

/-- Witness for C3's amended claim: a normalized two-paragraph text is
reproduced exactly by joining the chunk contents. -/
theorem extractTextChunks_amended_witness :
    joinSep ((extractTextChunks "hello\n\nworld".toList 40000).map
      (·.content)) = "hello\n\nworld".toList :=
  (extractTextChunks_amended "hello\n\nworld".toList 40000).2
    (by decide) (by decide)

/-! ## Supporting lemmas for the merger -/

theorem reduceOption_map_some' (l : List α) :
    (l.map some).reduceOption = l := by
  induction l with
  | nil => rfl
  | cons x xs ih => simp [ih]

theorem jsIndexOf_of_not_mem (l : List JStr) (s : JStr) (h : s ∉ l) :
    jsIndexOf l s = -1 := by
  induction l with
  | nil => rfl
  | cons x xs ih =>
      have hx : ¬ x = s := by
        rintro rfl; exact h (List.mem_cons_self x xs)
      have hxs : s ∉ xs := fun hm => h (List.mem_cons_of_mem x hm)
      simp [jsIndexOf, hx, ih hxs]

theorem jsIndexOf_of_mem (l : List JStr) (s : JStr) (h : s ∈ l) :
    jsIndexOf l s = (sevRank l s : Int) := by
  induction l with
  | nil => cases h
  | cons x xs ih =>
      by_cases hx : x = s
      · simp [jsIndexOf, sevRank, hx]
      · have hm : s ∈ xs := by
          rcases List.mem_cons.mp h with h1 | h2
          · exact absurd h1.symm hx
          · exact h2
        have hne : (sevRank xs s : Int) ≠ -1 := by omega
        simp only [jsIndexOf, sevRank, if_neg hx, ih hm, hne, ite_false]
        push_cast
        ring

theorem sevRank_inj (l : List JStr) {a b : JStr} (ha : a ∈ l) (hb : b ∈ l)
    (h : sevRank l a = sevRank l b) : a = b := by
  induction l with
  | nil => cases ha
  | cons x xs ih =>
      by_cases hxa : x = a
      · by_cases hxb : x = b
        · exact hxa.symm.trans hxb
        · exfalso
          subst hxa
          have e1 : sevRank (x :: xs) x = 0 := by simp [sevRank]
          have e2 : sevRank (x :: xs) b = sevRank xs b + 1 := by
            simp [sevRank, hxb]
          omega
      · by_cases hxb : x = b
        · exfalso
          subst hxb
          have e1 : sevRank (x :: xs) x = 0 := by simp [sevRank]
          have e2 : sevRank (x :: xs) a = sevRank xs a + 1 := by
            simp [sevRank, hxa]
          omega
        · have ha' : a ∈ xs := by
            rcases List.mem_cons.mp ha with h1 | h2
            · exact absurd h1.symm hxa
            · exact h2
          have hb' : b ∈ xs := by
            rcases List.mem_cons.mp hb with h1 | h2
            · exact absurd h1.symm hxb
            · exact h2
          simp only [sevRank, if_neg hxa, if_neg hxb] at h
          exact ih ha' hb' (by omega)

/-- The far side of the merger's severity update: it keeps one of the two
values and never increases the severity rank of either. -/
theorem sevMerge_spec (prio : List JStr) (cur v : JStr) (hc : cur ∈ prio)
    (hv : v ∈ prio) :
    (sevMerge prio cur v = cur ∨ sevMerge prio cur v = v) ∧
      sevRank prio (sevMerge prio cur v) ≤ sevRank prio cur ∧
      sevRank prio (sevMerge prio cur v) ≤ sevRank prio v := by
  unfold sevMerge
  rw [jsIndexOf_of_mem prio cur hc, jsIndexOf_of_mem prio v hv]
  by_cases h : (sevRank prio v : Int) < (sevRank prio cur : Int)
  · rw [if_pos ⟨by omega, Or.inr h⟩]
    exact ⟨Or.inr rfl, by omega, le_refl _⟩
  · rw [if_neg ?hcond]
    · exact ⟨Or.inl rfl, le_refl _, by omega⟩
    case hcond =>
      rintro ⟨h1, h2 | h3⟩
      · omega
      · exact h h3

/-- Folding the severity update over a list of in-priority values yields a
member of the inputs whose rank is minimal. -/
theorem sevFold_spec (prio : List JStr) (vs : List JStr) (cur : JStr)
    (hc : cur ∈ prio) (hvs : ∀ v ∈ vs, v ∈ prio) :
    vs.foldl (sevMerge prio) cur ∈ cur :: vs ∧
      sevRank prio (vs.foldl (sevMerge prio) cur) ≤ sevRank prio cur ∧
      ∀ v ∈ vs,
        sevRank prio (vs.foldl (sevMerge prio) cur) ≤ sevRank prio v := by
  induction vs generalizing cur with
  | nil =>
      exact ⟨List.mem_cons_self _ _, le_refl _, fun v hv => absurd hv (by simp)⟩
  | cons v vs ih =>
      have hv : v ∈ prio := hvs v (List.mem_cons_self v vs)
      have hms := sevMerge_spec prio cur v hc hv
      have hc' : sevMerge prio cur v ∈ prio := by
        rcases hms.1 with h | h <;> rw [h]
        · exact hc
        · exact hv
      have hvs' : ∀ w ∈ vs, w ∈ prio := fun w hw =>
        hvs w (List.mem_cons_of_mem v hw)
      obtain ⟨hmem, hcur, hall⟩ := ih (sevMerge prio cur v) hc' hvs'
      simp only [List.foldl_cons]
      refine ⟨?_, ?_, ?_⟩
      · rcases List.mem_cons.mp hmem with h | h
        · rw [h]
          rcases hms.1 with h' | h'
          · rw [h']; exact List.mem_cons_self _ _
          · rw [h']
            exact List.mem_cons_of_mem _ (List.mem_cons_self _ _)
        · exact List.mem_cons_of_mem _ (List.mem_cons_of_mem _ h)
      · exact le_trans hcur hms.2.1
      · intro w hw
        rcases List.mem_cons.mp hw with h | h
        · rw [h]
          exact le_trans hcur hms.2.2
        · exact hall w h

theorem fold_risk (rest : List AnalysisRecord) (r0 : AnalysisRecord) :
    (rest.foldl mergeStep r0).risk_rating =
      (rest.map (·.risk_rating)).foldl (sevMerge riskPriority)
        r0.risk_rating := by
  induction rest generalizing r0 with
  | nil => rfl
  | cons r rest ih => simpa [mergeStep] using ih (mergeStep r0 r)

theorem fold_enf (rest : List AnalysisRecord) (r0 : AnalysisRecord) :
    (rest.foldl mergeStep r0).enforceability_decision =
      (rest.map (·.enforceability_decision)).foldl
        (sevMerge enforceabilityPriority) r0.enforceability_decision := by
  induction rest generalizing r0 with
  | nil => rfl
  | cons r rest ih => simpa [mergeStep] using ih (mergeStep r0 r)

/-- For two or more records, the merged record exists and its severity
fields are the record fold, which projects to value folds. -/
theorem merge_sev_proj (r0 r1 : AnalysisRecord) (rest : List AnalysisRecord) :
    ∃ m, mergeExtractionResults ((r0 :: r1 :: rest).map some) = some m ∧
      m.risk_rating =
        ((r1 :: rest).map (·.risk_rating)).foldl (sevMerge riskPriority)
          r0.risk_rating ∧
      m.enforceability_decision =
        ((r1 :: rest).map (·.enforceability_decision)).foldl
          (sevMerge enforceabilityPriority) r0.enforceability_decision := by
  have hro := reduceOption_map_some' (r0 :: r1 :: rest)
  simp only [mergeExtractionResults, hro]
  refine ⟨_, rfl, ?_, ?_⟩
  · split_ifs <;> simp [fold_risk, mergeStep]
  · split_ifs <;> simp [fold_enf, mergeStep]

/-- The severity conclusions of C5, for one input list. -/
theorem merge_sev_core (l : List AnalysisRecord) (hne : l ≠ [])
    (hr : ∀ r ∈ l, r.risk_rating ∈ riskPriority)
    (he : ∀ r ∈ l, r.enforceability_decision ∈ enforceabilityPriority) :
    ∃ m, mergeExtractionResults (l.map some) = some m ∧
      m.risk_rating ∈ l.map (·.risk_rating) ∧
      (∀ v ∈ l.map (·.risk_rating),
        sevRank riskPriority m.risk_rating ≤ sevRank riskPriority v) ∧
      m.enforceability_decision ∈ l.map (·.enforceability_decision) ∧
      (∀ v ∈ l.map (·.enforceability_decision),
        sevRank enforceabilityPriority m.enforceability_decision ≤
          sevRank enforceabilityPriority v) := by
  cases l with
  | nil => exact absurd rfl hne
  | cons r0 t =>
      cases t with
      | nil =>
          refine ⟨r0, by simp [mergeExtractionResults], by simp, ?_, by simp, ?_⟩
          · intro v hv
            simp only [List.map_cons, List.map_nil, List.mem_singleton] at hv
            rw [hv]
          · intro v hv
            simp only [List.map_cons, List.map_nil, List.mem_singleton] at hv
            rw [hv]
      | cons r1 rest =>
          obtain ⟨m, hm, hmr, hme⟩ := merge_sev_proj r0 r1 rest
          have hr0 : r0.risk_rating ∈ riskPriority :=
            hr r0 (List.mem_cons_self _ _)
          have he0 : r0.enforceability_decision ∈ enforceabilityPriority :=
            he r0 (List.mem_cons_self _ _)
          have hrs : ∀ v ∈ (r1 :: rest).map (·.risk_rating),
              v ∈ riskPriority := by
            intro v hv
            rcases List.mem_map.mp hv with ⟨r, hrl, hre⟩
            rw [← hre]
            exact hr r (List.mem_cons_of_mem _ hrl)
          have hes : ∀ v ∈ (r1 :: rest).map (·.enforceability_decision),
              v ∈ enforceabilityPriority := by
            intro v hv
            rcases List.mem_map.mp hv with ⟨r, hrl, hre⟩
            rw [← hre]
            exact he r (List.mem_cons_of_mem _ hrl)
          obtain ⟨hmem1, hmin1, hall1⟩ :=
            sevFold_spec riskPriority ((r1 :: rest).map (·.risk_rating))
              r0.risk_rating hr0 hrs
          obtain ⟨hmem2, hmin2, hall2⟩ :=
            sevFold_spec enforceabilityPriority
              ((r1 :: rest).map (·.enforceability_decision))
              r0.enforceability_decision he0 hes
          refine ⟨m, hm, ?_, ?_, ?_, ?_⟩
          · rw [hmr, List.map_cons]
            exact hmem1
          · intro v hv
            rw [List.map_cons] at hv
            rw [hmr]
            rcases List.mem_cons.mp hv with h | h
            · rw [h]; exact hmin1
            · exact hall1 v h
          · rw [hme, List.map_cons]
            exact hmem2
          · intro v hv
            rw [List.map_cons] at hv
            rw [hme]
            rcases List.mem_cons.mp hv with h | h
            · rw [h]; exact hmin2
            · exact hall2 v h

/-! ## C5: severity merge -/

/-- C5: for a non-empty list of records whose severity values all lie in
the fixed priority lists, the merged record's `risk_rating` and
`enforceability_decision` are values occurring among the inputs of minimal
severity rank (i.e. the most severe value seen), and these two merged
fields are independent of the order of the input list; a later record
therefore only overrides when strictly more severe. -/
theorem mergeExtractionResults_severity (l : List AnalysisRecord)
    (hne : l ≠ [])
    (hr : ∀ r ∈ l, r.risk_rating ∈ riskPriority)
    (he : ∀ r ∈ l, r.enforceability_decision ∈ enforceabilityPriority) :
    ∃ m, mergeExtractionResults (l.map some) = some m ∧
      m.risk_rating ∈ l.map (·.risk_rating) ∧
      (∀ v ∈ l.map (·.risk_rating),
        sevRank riskPriority m.risk_rating ≤ sevRank riskPriority v) ∧
      m.enforceability_decision ∈ l.map (·.enforceability_decision) ∧
      (∀ v ∈ l.map (·.enforceability_decision),
        sevRank enforceabilityPriority m.enforceability_decision ≤
          sevRank enforceabilityPriority v) ∧
      ∀ l' : List AnalysisRecord, l.Perm l' →
        ∃ m', mergeExtractionResults (l'.map some) = some m' ∧
          m'.risk_rating = m.risk_rating ∧
          m'.enforceability_decision = m.enforceability_decision := by
  obtain ⟨m, hm, h1, h2, h3, h4⟩ := merge_sev_core l hne hr he
  refine ⟨m, hm, h1, h2, h3, h4, ?_⟩
  intro l' hperm
  have hne' : l' ≠ [] := by
    intro h
    subst h
    exact hne hperm.eq_nil
  have hr' : ∀ r ∈ l', r.risk_rating ∈ riskPriority := fun r hrm =>
    hr r (hperm.mem_iff.mpr hrm)
  have he' : ∀ r ∈ l', r.enforceability_decision ∈ enforceabilityPriority :=
    fun r hrm => he r (hperm.mem_iff.mpr hrm)
  obtain ⟨m', hm', h1', h2', h3', h4'⟩ := merge_sev_core l' hne' hr' he'
  have hpr := hperm.map (·.risk_rating)
  have hpe := hperm.map (·.enforceability_decision)
  refine ⟨m', hm', ?_, ?_⟩
  · have hmp : m.risk_rating ∈ riskPriority := by
      rcases List.mem_map.mp h1 with ⟨r, hrl, hre⟩
      rw [← hre]; exact hr r hrl
    have hmp' : m'.risk_rating ∈ riskPriority := by
      rcases List.mem_map.mp h1' with ⟨r, hrl, hre⟩
      rw [← hre]; exact hr' r hrl
    exact sevRank_inj riskPriority hmp' hmp
      (le_antisymm (h2' _ (hpr.mem_iff.mp h1)) (h2 _ (hpr.mem_iff.mpr h1')))
  · have hmp : m.enforceability_decision ∈ enforceabilityPriority := by
      rcases List.mem_map.mp h3 with ⟨r, hrl, hre⟩
      rw [← hre]; exact he r hrl
    have hmp' : m'.enforceability_decision ∈ enforceabilityPriority := by
      rcases List.mem_map.mp h3' with ⟨r, hrl, hre⟩
      rw [← hre]; exact he' r hrl
    exact sevRank_inj enforceabilityPriority hmp' hmp
      (le_antisymm (h4' _ (hpe.mem_iff.mp h3)) (h4 _ (hpe.mem_iff.mpr h3')))

/-- Witness for C5: merging the Low/High/Medium records; the merged risk is
`High` and the merged enforceability is `Not Enforceable`. -/
theorem mergeExtractionResults_severity_witness :
    (∃ m,
      mergeExtractionResults ([recLow, recHigh, recMed].map some) = some m ∧
      m.risk_rating ∈ [recLow, recHigh, recMed].map (·.risk_rating) ∧
      (∀ v ∈ [recLow, recHigh, recMed].map (·.risk_rating),
        sevRank riskPriority m.risk_rating ≤ sevRank riskPriority v) ∧
      m.enforceability_decision ∈
        [recLow, recHigh, recMed].map (·.enforceability_decision) ∧
      (∀ v ∈ [recLow, recHigh, recMed].map (·.enforceability_decision),
        sevRank enforceabilityPriority m.enforceability_decision ≤
          sevRank enforceabilityPriority v) ∧
      ∀ l' : List AnalysisRecord, [recLow, recHigh, recMed].Perm l' →
        ∃ m', mergeExtractionResults (l'.map some) = some m' ∧
          m'.risk_rating = m.risk_rating ∧
          m'.enforceability_decision = m.enforceability_decision) ∧
    (mergeExtractionResults ([recLow, recHigh, recMed].map some)).map
        (·.risk_rating) = some "High".toList :=
  ⟨mergeExtractionResults_severity [recLow, recHigh, recMed] (by decide)
      (by decide) (by decide),
   by decide⟩

/-! ## C6: confidence merge -/

/-- For two or more records with at least one numeric score, the merged
record's `confidence_score` is the rounded mean of the numeric scores. -/
theorem merge_conf_proj (r0 r1 : AnalysisRecord) (rest : List AnalysisRecord)
    (hs : (r0 :: r1 :: rest).filterMap (·.confidence_score) ≠ []) :
    ∃ m, mergeExtractionResults ((r0 :: r1 :: rest).map some) = some m ∧
      m.confidence_score =
        some ((jsRound (((r0 :: r1 :: rest).filterMap
            (·.confidence_score)).sum /
          (((r0 :: r1 :: rest).filterMap
            (·.confidence_score)).length : ℚ)) : Int) : ℚ) := by
  have hro := reduceOption_map_some' (r0 :: r1 :: rest)
  simp only [mergeExtractionResults, hro]
  rw [if_pos hs]
  exact ⟨_, rfl, rfl⟩

/-- C6, counterexample: the claim says the merged `confidence_score` equals
the arithmetic mean of the inputs' numeric scores, but the source applies
`Math.round`: merging scores 80 and 85 yields 83, not the mean 82.5. -/
theorem mergeExtractionResults_mean_cex :
    ∃ m, mergeExtractionResults ([recConf80, recConf85].map some) = some m ∧
      m.confidence_score = some 83 ∧ ((80 : ℚ) + 85) / 2 ≠ 83 := by
  obtain ⟨m, hm, hc⟩ := merge_conf_proj recConf80 recConf85 [] (by decide)
  refine ⟨m, hm, ?_, by norm_num⟩
  rw [hc]
  have e1 : [recConf80, recConf85].filterMap (·.confidence_score) =
      [(80 : ℚ), 85] := rfl
  rw [e1]
  have e2 : ([(80 : ℚ), 85].sum) / (([(80 : ℚ), 85].length : Nat) : ℚ) +
      1 / 2 = ((83 : Int) : ℚ) := by
    simp [List.sum_cons]
    norm_num
  have e3 : jsRound (([(80 : ℚ), 85].sum) /
      (([(80 : ℚ), 85].length : Nat) : ℚ)) = 83 := by
    unfold jsRound
    rw [e2, Int.floor_intCast]
  rw [e3]
  norm_num

/-- C6, amended: for two or more records with at least one numeric score,
the merged `confidence_score` is the arithmetic mean of the numeric scores
(ignoring missing ones), rounded half-up to the nearest integer
(`Math.round`). -/
theorem mergeExtractionResults_confidence (l : List AnalysisRecord)
    (h2 : 2 ≤ l.length)
    (hs : l.filterMap (·.confidence_score) ≠ []) :
    ∃ m, mergeExtractionResults (l.map some) = some m ∧
      m.confidence_score =
        some ((jsRound ((l.filterMap (·.confidence_score)).sum /
          ((l.filterMap (·.confidence_score)).length : ℚ)) : Int) : ℚ) := by
  cases l with
  | nil => exact absurd h2 (by norm_num)
  | cons r0 t =>
      cases t with
      | nil => exact absurd h2 (by norm_num)
      | cons r1 rest => exact merge_conf_proj r0 r1 rest hs

/-- Witness for C6's amended claim, at the spec's example scores 80, 60 and
100. -/
theorem mergeExtractionResults_confidence_witness :
    ∃ m,
      mergeExtractionResults ([recConf80, recConf60, recConf100].map some) =
        some m ∧
      m.confidence_score =
        some ((jsRound
          (([recConf80, recConf60, recConf100].filterMap
              (·.confidence_score)).sum /
            (([recConf80, recConf60, recConf100].filterMap
              (·.confidence_score)).length : ℚ)) : Int) : ℚ) :=
  mergeExtractionResults_confidence [recConf80, recConf60, recConf100]
    (by decide) (by decide)

/-! ## C9: merge provenance -/

/-- C9: when two or more valid records are merged, the output carries the
chunked flag and the count of merged units; when the valid input list is a
single record, the merger returns that record unchanged (and hence without
provenance fields set). -/
theorem mergeExtractionResults_provenance :
    (∀ (l : List (Option AnalysisRecord)) (r : AnalysisRecord),
        l.reduceOption = [r] → mergeExtractionResults l = some r) ∧
    (∀ l : List (Option AnalysisRecord), 2 ≤ l.reduceOption.length →
        ∃ m, mergeExtractionResults l = some m ∧ m.chunkedFlag = true ∧
          m.chunksProcessedCount = l.reduceOption.length) := by
  constructor
  · intro l r h
    simp [mergeExtractionResults, h]
  · intro l h2
    rcases hv : l.reduceOption with _ | ⟨r0, t⟩
    · rw [hv] at h2; exact absurd h2 (by norm_num)
    · rcases ht : t with _ | ⟨r1, rest⟩
      · rw [hv, ht] at h2; exact absurd h2 (by norm_num)
      · rw [ht] at hv
        simp only [mergeExtractionResults, hv]
        exact ⟨_, rfl, rfl, rfl⟩

/-- Witness for C9: a singleton valid list is returned unchanged, and a
two-record merge carries `_chunked = true` and `_chunks_processed = 2`. -/
theorem mergeExtractionResults_provenance_witness :
    mergeExtractionResults [some recHigh] = some recHigh ∧
      ∃ m, mergeExtractionResults [some recLow, some recHigh] = some m ∧
        m.chunkedFlag = true ∧
        m.chunksProcessedCount =
          ([some recLow, some recHigh] :
            List (Option AnalysisRecord)).reduceOption.length :=
  ⟨mergeExtractionResults_provenance.1 [some recHigh] recHigh (by decide),
   mergeExtractionResults_provenance.2 [some recLow, some recHigh] (by decide)⟩

/-! ## Supporting lemmas for the analysis loop -/

theorem setDocStatus_get?_ne (ds : List QDoc) (j : Nat) (s : DocStatus)
    (pos : Nat) (h : pos ≠ j) :
    (setDocStatus ds j s).get? pos = ds.get? pos := by
  induction ds generalizing j pos with
  | nil => rfl
  | cons d t ih =>
      cases j with
      | zero =>
          cases pos with
          | zero => exact absurd rfl h
          | succ n => rfl
      | succ m =>
          cases pos with
          | zero => rfl
          | succ n => exact ih m n (fun hh => h (by rw [hh]))

theorem setDocStatus_get?_self (ds : List QDoc) (j : Nat) (s : DocStatus)
    (x : QDoc) (hx : ds.get? j = some x) :
    (setDocStatus ds j s).get? j = some { x with status := s } := by
  induction ds generalizing j with
  | nil => cases hx
  | cons d t ih =>
      cases j with
      | zero =>
          injection hx with h
          rw [← h]
          rfl
      | succ m => exact ih m hx

theorem setDocStatus_keys (ds : List QDoc) (j : Nat) (s : DocStatus) :
    (setDocStatus ds j s).map (·.key) = ds.map (·.key) := by
  induction ds generalizing j with
  | nil => rfl
  | cons d t ih =>
      cases j with
      | zero => rfl
      | succ m => simp only [setDocStatus, List.map_cons, ih m]

theorem jsFindIndex_some (p : QDoc → Bool) (l : List QDoc) :
    ∀ j, jsFindIndex p l = some j → ∃ x, l.get? j = some x ∧ p x = true := by
  induction l with
  | nil => intro j h; cases h
  | cons d t ih =>
      intro j h
      by_cases hp : p d
      · rw [show jsFindIndex p (d :: t) = some 0 by
          simp [jsFindIndex, hp]] at h
        injection h with h0
        exact ⟨d, by rw [← h0]; rfl, hp⟩
      · rw [show jsFindIndex p (d :: t) = (jsFindIndex p t).map (· + 1) by
          simp [jsFindIndex, hp]] at h
        cases hj : jsFindIndex p t with
        | none => rw [hj] at h; cases h
        | some m =>
            rw [hj] at h
            injection h with h0
            obtain ⟨x, hx, hpx⟩ := ih m hj
            exact ⟨x, by rw [← h0]; exact hx, hpx⟩

theorem jsFindIndex_key_nodup (l : List QDoc)
    (hnd : (l.map (·.key)).Nodup) :
    ∀ (pos : Nat) (e : QDoc), l.get? pos = some e →
      jsFindIndex (fun x => x.key = e.key) l = some pos := by
  induction l with
  | nil => intro pos e he; cases he
  | cons d t ih =>
      intro pos e he
      cases pos with
      | zero =>
          injection he with h
          rw [h]
          simp [jsFindIndex]
      | succ n =>
          have hmem : e ∈ t := List.get?_mem he
          rw [List.map_cons] at hnd
          have hkey : ¬ d.key = e.key := by
            intro hk
            apply (List.nodup_cons.mp hnd).1
            rw [hk]
            exact List.mem_map.mpr ⟨e, hmem, rfl⟩
          have hnd' : (t.map (·.key)).Nodup := (List.nodup_cons.mp hnd).2
          have hstep : jsFindIndex (fun x => x.key = e.key) (d :: t) =
              (jsFindIndex (fun x => x.key = e.key) t).map (· + 1) := by
            simp [jsFindIndex, hkey]
          rw [hstep, ih hnd' n e he]
          rfl

theorem stepDoc_results_eq (fate : Nat → DocFate) (now : JStr) (i : Nat)
    (d : QDoc) (q : QueueState) :
    (stepDoc fate now i d q).results = q.results ++ rowsOf (fate i) d now := by
  unfold stepDoc rowsOf
  cases fate i with
  | thrown msg b => simp
  | returned res =>
      dsimp only
      by_cases hc : res.success = true ∧ 0 < resultConfidence res
      · rw [if_pos hc, if_pos hc]
        cases res.data with
        | some rec => simp
        | none => simp
      · rw [if_neg hc, if_neg hc]

theorem stepDoc_failed_eq (fate : Nat → DocFate) (now : JStr) (i : Nat)
    (d : QDoc) (q : QueueState) :
    (stepDoc fate now i d q).failedDocuments =
      q.failedDocuments ++ failRowsOf (fate i) d := by
  unfold stepDoc failRowsOf
  cases fate i with
  | thrown msg b => simp
  | returned res =>
      dsimp only
      by_cases hc : res.success = true ∧ 0 < resultConfidence res
      · rw [if_pos hc, if_pos hc]
        cases res.data with
        | some rec => simp
        | none => simp
      · rw [if_neg hc, if_neg hc]

theorem stepDoc_count (fate : Nat → DocFate) (now : JStr) (i : Nat)
    (d : QDoc) (q : QueueState) :
    (stepDoc fate now i d q).processedCount =
      (match fate i with
       | .thrown _ _ => q.processedCount
       | .returned _ => i + 1) := by
  unfold stepDoc
  cases fate i with
  | thrown msg b => rfl
  | returned res =>
      dsimp only
      by_cases hc : res.success = true ∧ 0 < resultConfidence res
      · rw [if_pos hc]
        cases hdata : res.data with
        | some rec => rfl
        | none =>
            exfalso
            have h2 := hc.2
            rw [resultConfidence, hdata] at h2
            exact absurd h2 (lt_irrefl 0)
      · rw [if_neg hc]

theorem stepDoc_keys (fate : Nat → DocFate) (now : JStr) (i : Nat)
    (d : QDoc) (q : QueueState) :
    (stepDoc fate now i d q).documents.map (·.key) =
      q.documents.map (·.key) := by
  have hset : ∀ s : DocStatus,
      ((match jsFindIndex (fun x => x.key = d.key) q.documents with
        | some j => setDocStatus q.documents j s
        | none => q.documents : List QDoc)).map (·.key) =
        q.documents.map (·.key) := by
    intro s
    cases jsFindIndex (fun x => x.key = d.key) q.documents with
    | none => rfl
    | some j => exact setDocStatus_keys q.documents j s
  unfold stepDoc
  cases fate i with
  | thrown msg b => exact hset .failed
  | returned res =>
      dsimp only
      by_cases hc : res.success = true ∧ 0 < resultConfidence res
      · rw [if_pos hc]
        cases res.data with
        | some rec => exact hset .completed
        | none => rfl
      · rw [if_neg hc]
        exact hset .failed

theorem stepDoc_get?_ne (fate : Nat → DocFate) (now : JStr) (i : Nat)
    (d : QDoc) (q : QueueState) (pos : Nat) (e : QDoc)
    (he : q.documents.get? pos = some e) (hk : d.key ≠ e.key) :
    (stepDoc fate now i d q).documents.get? pos = some e := by
  have hset : ∀ s : DocStatus,
      (match jsFindIndex (fun x => x.key = d.key) q.documents with
       | some j => setDocStatus q.documents j s
       | none => q.documents).get? pos = some e := by
    intro s
    cases hj : jsFindIndex (fun x => x.key = d.key) q.documents with
    | none => exact he
    | some j =>
        obtain ⟨x, hx, hpx⟩ := jsFindIndex_some _ _ j hj
        have hxk : x.key = d.key := of_decide_eq_true hpx
        have hjne : pos ≠ j := by
          intro hpj
          subst hpj
          rw [he] at hx
          injection hx with h
          exact hk (by rw [← hxk, ← h])
        rw [setDocStatus_get?_ne _ _ _ _ hjne]
        exact he
  unfold stepDoc
  cases fate i with
  | thrown msg b => exact hset .failed
  | returned res =>
      dsimp only
      by_cases hc : res.success = true ∧ 0 < resultConfidence res
      · rw [if_pos hc]
        cases res.data with
        | some rec => exact hset .completed
        | none => exact he
      · rw [if_neg hc]
        exact hset .failed

theorem stepDoc_marks (fate : Nat → DocFate) (now : JStr) (i : Nat)
    (d : QDoc) (q : QueueState)
    (hnd : (q.documents.map (·.key)).Nodup)
    (pos : Nat) (hd : q.documents.get? pos = some d) :
    ∃ s, (s = DocStatus.completed ∨ s = DocStatus.failed) ∧
      (stepDoc fate now i d q).documents.get? pos =
        some { d with status := s } := by
  have hfind : jsFindIndex (fun x => x.key = d.key) q.documents = some pos :=
    jsFindIndex_key_nodup q.documents hnd pos d hd
  have hset : ∀ s : DocStatus,
      (match jsFindIndex (fun x => x.key = d.key) q.documents with
       | some j => setDocStatus q.documents j s
       | none => q.documents).get? pos = some { d with status := s } := by
    intro s
    rw [hfind]
    exact setDocStatus_get?_self q.documents pos s d hd
  unfold stepDoc
  cases fate i with
  | thrown msg b => exact ⟨.failed, Or.inr rfl, hset .failed⟩
  | returned res =>
      dsimp only
      by_cases hc : res.success = true ∧ 0 < resultConfidence res
      · rw [if_pos hc]
        cases hdata : res.data with
        | some rec => exact ⟨.completed, Or.inl rfl, hset .completed⟩
        | none =>
            exfalso
            have h2 := hc.2
            rw [resultConfidence, hdata] at h2
            exact absurd h2 (lt_irrefl 0)
      · rw [if_neg hc]
        exact ⟨.failed, Or.inr rfl, hset .failed⟩

theorem processLoop_trace (fate : Nat → DocFate) (now : JStr) :
    ∀ (ds : List QDoc) (i : Nat) (q : QueueState),
      (processLoop fate now ds i q).2 = ds.map (·.key) := by
  intro ds
  induction ds with
  | nil => intro i q; rfl
  | cons d t ih =>
      intro i q
      show d.key :: (processLoop fate now t (i + 1) _).2 = _
      rw [ih (i + 1) _]
      rfl

theorem processLoop_results (fate : Nat → DocFate) (now : JStr) :
    ∀ (ds : List QDoc) (i : Nat) (q : QueueState),
      (processLoop fate now ds i q).1.results = q.results ++
        ((ds.enumFrom i).map (fun x => rowsOf (fate x.1) x.2 now)).flatten := by
  intro ds
  induction ds with
  | nil => intro i q; simp [processLoop]
  | cons d t ih =>
      intro i q
      show (processLoop fate now t (i + 1) (stepDoc fate now i d q)).1.results = _
      rw [ih (i + 1) (stepDoc fate now i d q), stepDoc_results_eq]
      simp [List.append_assoc]

theorem processLoop_failedDocs (fate : Nat → DocFate) (now : JStr) :
    ∀ (ds : List QDoc) (i : Nat) (q : QueueState),
      (processLoop fate now ds i q).1.failedDocuments = q.failedDocuments ++
        ((ds.enumFrom i).map (fun x => failRowsOf (fate x.1) x.2)).flatten := by
  intro ds
  induction ds with
  | nil => intro i q; simp [processLoop]
  | cons d t ih =>
      intro i q
      show (processLoop fate now t (i + 1)
        (stepDoc fate now i d q)).1.failedDocuments = _
      rw [ih (i + 1) (stepDoc fate now i d q), stepDoc_failed_eq]
      simp [List.append_assoc]

theorem processLoop_get?_ne (fate : Nat → DocFate) (now : JStr) :
    ∀ (ds : List QDoc) (i : Nat) (q : QueueState) (pos : Nat) (e : QDoc),
      q.documents.get? pos = some e →
      (∀ d ∈ ds, d.key ≠ e.key) →
      (processLoop fate now ds i q).1.documents.get? pos = some e := by
  intro ds
  induction ds with
  | nil => intro i q pos e he _; exact he
  | cons d t ih =>
      intro i q pos e he hks
      show (processLoop fate now t (i + 1)
        (stepDoc fate now i d q)).1.documents.get? pos = some e
      exact ih (i + 1) _ pos e
        (stepDoc_get?_ne fate now i d q pos e he
          (hks d (List.mem_cons_self _ _)))
        (fun d' hd' => hks d' (List.mem_cons_of_mem _ hd'))

theorem processLoop_marks (fate : Nat → DocFate) (now : JStr) :
    ∀ (ds : List QDoc) (i : Nat) (q : QueueState),
      (q.documents.map (·.key)).Nodup →
      (∀ d' ∈ ds, ∃ pos', q.documents.get? pos' = some d') →
      ((ds.map (·.key)).Nodup) →
      ∀ d ∈ ds, ∀ pos, q.documents.get? pos = some d →
        ∃ s, (s = DocStatus.completed ∨ s = DocStatus.failed) ∧
          (processLoop fate now ds i q).1.documents.get? pos =
            some { d with status := s } := by
  intro ds
  induction ds with
  | nil => intro i q _ _ _ d hd; cases hd
  | cons dh dt ih =>
      intro i q hnd hmem hknd d hd pos hpos
      have hdhk : dh.key ∉ dt.map (·.key) :=
        (List.nodup_cons.mp (by simpa using hknd)).1
      rcases List.mem_cons.mp hd with h | hdt
      · subst h
        obtain ⟨s, hs, hset⟩ := stepDoc_marks fate now i d q hnd pos hpos
        refine ⟨s, hs, ?_⟩
        show (processLoop fate now dt (i + 1)
          (stepDoc fate now i d q)).1.documents.get? pos =
          some { d with status := s }
        refine processLoop_get?_ne fate now dt (i + 1) _ pos _ hset ?_
        intro d' hd' hk
        apply hdhk
        rw [← hk]
        exact List.mem_map.mpr ⟨d', hd', rfl⟩
      · show ∃ s, (s = DocStatus.completed ∨ s = DocStatus.failed) ∧
          (processLoop fate now dt (i + 1)
            (stepDoc fate now i dh q)).1.documents.get? pos =
            some { d with status := s }
        have hkne : ∀ d' ∈ dt, dh.key ≠ d'.key := by
          intro d' hd' hk
          apply hdhk
          rw [hk]
          exact List.mem_map.mpr ⟨d', hd', rfl⟩
        refine ih (i + 1) (stepDoc fate now i dh q) ?_ ?_ ?_ d hdt pos ?_
        · rw [stepDoc_keys]; exact hnd
        · intro d' hd'
          obtain ⟨pos', hpos'⟩ := hmem d' (List.mem_cons_of_mem _ hd')
          exact ⟨pos', stepDoc_get?_ne fate now i dh q pos' d' hpos'
            (hkne d' hd')⟩
        · exact (List.nodup_cons.mp (by simpa using hknd)).2
        · exact stepDoc_get?_ne fate now i dh q pos d hpos (hkne d hdt)

theorem processLoop_count_ret (fate : Nat → DocFate) (now : JStr) :
    ∀ (ds : List QDoc) (i : Nat) (q : QueueState),
      ds ≠ [] →
      (∀ k, k < ds.length → ∃ res, fate (i + k) = DocFate.returned res) →
      (processLoop fate now ds i q).1.processedCount = i + ds.length := by
  intro ds
  induction ds with
  | nil => intro i q h; exact absurd rfl h
  | cons d t ih =>
      intro i q _ hall
      obtain ⟨res, hres⟩ := hall 0 (by simp)
      rw [Nat.add_zero] at hres
      cases t with
      | nil =>
          show (stepDoc fate now i d q).processedCount = _
          rw [stepDoc_count, hres]
          rfl
      | cons d2 t2 =>
          show (processLoop fate now (d2 :: t2) (i + 1)
            (stepDoc fate now i d q)).1.processedCount = _
          rw [ih (i + 1) (stepDoc fate now i d q) (by simp) ?_]
          · simp only [List.length_cons]
            omega
          · intro k hk
            obtain ⟨r2, h2⟩ := hall (k + 1) (by simpa using Nat.succ_lt_succ hk)
            exact ⟨r2, by rw [show i + 1 + k = i + (k + 1) by omega]; exact h2⟩

theorem processLoop_count_thr (fate : Nat → DocFate) (now : JStr) :
    ∀ (ds : List QDoc) (i : Nat) (q : QueueState),
      (∀ k, k < ds.length → ∃ m b, fate (i + k) = DocFate.thrown m b) →
      (processLoop fate now ds i q).1.processedCount = q.processedCount := by
  intro ds
  induction ds with
  | nil => intro i q _; rfl
  | cons d t ih =>
      intro i q hall
      obtain ⟨m, b, hmb⟩ := hall 0 (by simp)
      rw [Nat.add_zero] at hmb
      show (processLoop fate now t (i + 1)
        (stepDoc fate now i d q)).1.processedCount = _
      rw [ih (i + 1) (stepDoc fate now i d q) ?_]
      · rw [stepDoc_count, hmb]
      · intro k hk
        obtain ⟨m2, b2, h2⟩ := hall (k + 1) (by simpa using Nat.succ_lt_succ hk)
        exact ⟨m2, b2, by rw [show i + 1 + k = i + (k + 1) by omega]; exact h2⟩

/-! ## C1: resumability -/

/-- C1: on a ledger with no two documents sharing a storage key, a resumed
`processAnalysis` run leaves every already-terminal (`completed`/`failed`)
ledger entry exactly as it was, drives every `pending` entry to a terminal
status while preserving its identity fields, only appends to the recorded
results, and consults the analysis oracle exactly for the pending
documents, in ledger order. -/
theorem processAnalysis_resume (fate : Nat → DocFate) (now : JStr)
    (q : QueueState) (hnd : (q.documents.map (·.key)).Nodup) :
    (∀ pos e, q.documents.get? pos = some e → e.status ≠ DocStatus.pending →
        (processAnalysis fate now q).1.documents.get? pos = some e) ∧
    (∀ pos e, q.documents.get? pos = some e → e.status = DocStatus.pending →
        ∃ s, (s = DocStatus.completed ∨ s = DocStatus.failed) ∧
          (processAnalysis fate now q).1.documents.get? pos =
            some { e with status := s }) ∧
    (∃ new, (processAnalysis fate now q).1.results = q.results ++ new) ∧
    (processAnalysis fate now q).2 =
      (q.documents.filter (fun d => d.status = DocStatus.pending)).map
        (·.key) := by
  unfold processAnalysis
  cases hemp : (q.documents.filter
      (fun d => d.status = DocStatus.pending)).isEmpty with
  | true =>
      have hfe : q.documents.filter (fun d => d.status = DocStatus.pending) =
          [] := List.isEmpty_iff.mp hemp
      simp only [hemp, if_true]
      refine ⟨fun pos e he _ => he, ?_, ⟨[], by simp⟩, by rw [hfe]; rfl⟩
      intro pos e he hst
      exfalso
      have : e ∈ q.documents.filter (fun d => d.status = DocStatus.pending) :=
        List.mem_filter.mpr ⟨List.get?_mem he, by simp [hst]⟩
      rw [hfe] at this
      cases this
  | false =>
      simp only [hemp, Bool.false_eq_true, if_false]
      have hpendnd : ((q.documents.filter
          (fun d => d.status = DocStatus.pending)).map (·.key)).Nodup :=
        List.Nodup.sublist
          ((List.filter_sublist q.documents).map (·.key)) hnd
      refine ⟨?_, ?_, ?_, ?_⟩
      · intro pos e he hst
        show (processLoop fate now _ 0 q).1.documents.get? pos = some e
        refine processLoop_get?_ne fate now _ 0 q pos e he ?_
        intro dd hdd hk
        have hmemd := List.mem_filter.mp hdd
        have hde : dd = e :=
          List.inj_on_of_nodup_map hnd hmemd.1 (List.get?_mem he) hk
        apply hst
        rw [← hde]
        exact of_decide_eq_true hmemd.2
      · intro pos e he hst
        show ∃ s, _ ∧ (processLoop fate now _ 0 q).1.documents.get? pos =
          some { e with status := s }
        refine processLoop_marks fate now _ 0 q hnd ?_ hpendnd e ?_ pos he
        · intro d' hd'
          exact List.mem_iff_get?.mp (List.mem_filter.mp hd').1
        · exact List.mem_filter.mpr ⟨List.get?_mem he, by simp [hst]⟩
      · exact ⟨_, processLoop_results fate now _ 0 q⟩
      · show (processLoop fate now _ 0 q).2 = _
        exact processLoop_trace fate now _ 0 q

/-- Witness for C1, on the spec's ten-document ledger (six completed, one
failed, three pending): exactly the three pending documents are processed,
in order, and the first completed entry is untouched. -/
theorem processAnalysis_resume_witness :
    (processAnalysis fateOk "t".toList q10).2 =
      ["k8".toList, "k9".toList, "k10".toList] ∧
    (processAnalysis fateOk "t".toList q10).1.documents.get? 0 =
      some ⟨"k1".toList, "doc1".toList, ".pdf".toList, 0,
        DocStatus.completed⟩ := by
  have h := processAnalysis_resume fateOk "t".toList q10 (by decide)
  constructor
  · rw [h.2.2.2]
    decide
  · exact h.1 0 ⟨"k1".toList, "doc1".toList, ".pdf".toList, 0,
      DocStatus.completed⟩ rfl (by decide)

/-! ## C8: failed-document placeholder -/

/-- C8, counterexample: a document whose processing throws contributes no
row at all to `results` — only a `failedDocuments` entry — so the results
list has fewer rows than the input documents; moreover the placeholder the
API-failure path does append has `appl_no = 'EXTRACTION_FAILED'`, not
`'Unknown'`. -/
theorem processAnalysis_placeholder_cex :
    (processAnalysis fateThrow "t".toList qOnePending).1.results = [] ∧
    qOnePending.documents.length = 1 ∧
    (processAnalysis fateThrow "t".toList qOnePending).1.failedDocuments =
      [⟨"doc1".toList, "S3 read failed".toList⟩] ∧
    (getFailedExtractionResult "x".toList).appl_no ≠ "Unknown".toList := by
  refine ⟨?_, rfl, ?_, ?_⟩ <;> decide

/-- C8, amended: after a run, `results` is extended by exactly one row per
pending document whose iteration did not throw (the enriched analysis
record on success, `result.data` on a returned failure — which on the API
error paths of `analyzeDocument` is the `getFailedExtractionResult`
placeholder, with every extraction field `'Unknown'` except
`appl_no = 'EXTRACTION_FAILED'` and risk `'Manual Review Required'`) while
a document whose iteration throws contributes no results row, only a
`failedDocuments` entry; so results can have fewer rows than input
documents. -/
theorem processAnalysis_placeholder_amended :
    (∀ (fate : Nat → DocFate) (now : JStr) (q : QueueState),
      (processAnalysis fate now q).1.results = q.results ++
        (((q.documents.filter
            (fun d => d.status = DocStatus.pending)).enumFrom 0).map
          (fun x => rowsOf (fate x.1) x.2 now)).flatten ∧
      (processAnalysis fate now q).1.failedDocuments = q.failedDocuments ++
        (((q.documents.filter
            (fun d => d.status = DocStatus.pending)).enumFrom 0).map
          (fun x => failRowsOf (fate x.1) x.2)).flatten) ∧
    (∀ (msg : JStr) (d : QDoc) (now : JStr),
      rowsOf (.returned (analyzeDocumentErrResult msg)) d now =
        [{ getFailedExtractionResult msg with
            document_name := d.name, processed_at := now }] ∧
      (getFailedExtractionResult msg).appl_no = "EXTRACTION_FAILED".toList ∧
      (getFailedExtractionResult msg).borrower_name = "Unknown".toList ∧
      (getFailedExtractionResult msg).risk_rating =
        "Manual Review Required".toList) ∧
    (∀ (msg : JStr) (b : Bool) (d : QDoc) (now : JStr),
      rowsOf (.thrown msg b) d now = [] ∧
      failRowsOf (.thrown msg b) d =
        [⟨d.name,
          if b then "Rate limit exceeded after retries".toList else msg⟩]) := by
  refine ⟨?_, ?_, ?_⟩
  · intro fate now q
    unfold processAnalysis
    cases hemp : (q.documents.filter
        (fun d => d.status = DocStatus.pending)).isEmpty with
    | true =>
        have hfe : q.documents.filter
            (fun d => d.status = DocStatus.pending) = [] :=
          List.isEmpty_iff.mp hemp
        rw [hfe]
        simp [hemp]
    | false =>
        simp only [hemp, Bool.false_eq_true, if_false]
        constructor
        · show (processLoop fate now _ 0 q).1.results = _
          exact processLoop_results fate now _ 0 q
        · show (processLoop fate now _ 0 q).1.failedDocuments = _
          exact processLoop_failedDocs fate now _ 0 q
  · intro msg d now
    refine ⟨?_, rfl, rfl, rfl⟩
    dsimp only [rowsOf]
    rw [if_neg]
    · rfl
    · rintro ⟨h1, _⟩
      exact Bool.false_ne_true h1
  · intro msg b d now
    exact ⟨rfl, rfl⟩

/-! ## C10: processedCount is run-local -/

/-- C10, counterexample: on the ten-document ledger with prior
`processedCount = 6` and three pending documents, a resumed run in which
every iteration throws leaves `processedCount` at its prior value 6 — not
at the number of documents processed in that run (3). -/
theorem processAnalysis_count_cex :
    (processAnalysis fateThrow "t".toList q10).1.processedCount = 6 ∧
    (q10.documents.filter
      (fun d => d.status = DocStatus.pending)).length = 3 ∧
    (6 : Nat) ≠ 3 := by
  refine ⟨?_, ?_, ?_⟩ <;> decide

/-- C10, amended: when at least one document is pending and no iteration
throws, the run overwrites `processedCount` with the size of the run's
pending subset — regardless of its prior value, so earlier runs' counts are
discarded; but when every iteration of the run throws, the assignment is
skipped and `processedCount` keeps its prior value. -/
theorem processAnalysis_count (fate : Nat → DocFate) (now : JStr)
    (q : QueueState) :
    ((q.documents.filter (fun d => d.status = DocStatus.pending)) ≠ [] →
      (∀ k, k < (q.documents.filter
          (fun d => d.status = DocStatus.pending)).length →
        ∃ res, fate k = DocFate.returned res) →
      (processAnalysis fate now q).1.processedCount =
        (q.documents.filter (fun d => d.status = DocStatus.pending)).length) ∧
    ((∀ k, k < (q.documents.filter
          (fun d => d.status = DocStatus.pending)).length →
        ∃ m b, fate k = DocFate.thrown m b) →
      (processAnalysis fate now q).1.processedCount = q.processedCount) := by
  unfold processAnalysis
  cases hemp : (q.documents.filter
      (fun d => d.status = DocStatus.pending)).isEmpty with
  | true =>
      have hfe : q.documents.filter (fun d => d.status = DocStatus.pending) =
          [] := List.isEmpty_iff.mp hemp
      simp only [hemp, if_true]
      exact ⟨fun hne _ => absurd hfe hne, fun _ => trivial⟩
  | false =>
      simp only [hemp, Bool.false_eq_true, if_false]
      constructor
      · intro hne hall
        show (processLoop fate now _ 0 q).1.processedCount = _
        rw [processLoop_count_ret fate now _ 0 q hne
          (fun k hk => by simpa using hall k hk)]
        exact Nat.zero_add _
      · intro hall
        show (processLoop fate now _ 0 q).1.processedCount = _
        exact processLoop_count_thr fate now _ 0 q
          (fun k hk => by simpa using hall k hk)

/-- Witness for C10's amended claim: a fully successful resumed run on the
ten-document ledger sets `processedCount` to 3, the size of the pending
subset, discarding the prior value 6. -/
theorem processAnalysis_count_witness :
    (processAnalysis fateOk "t".toList q10).1.processedCount =
      (q10.documents.filter
        (fun d => d.status = DocStatus.pending)).length :=
  (processAnalysis_count fateOk "t".toList q10).1 (by decide)
    (fun k _ => ⟨_, rfl⟩)
